import Mathlib

/-!
# Verification of the source-map position-tracking core

A shallow embedding of `crates/interface/src/source_map/analyze.rs` and
`crates/interface/src/source_map/file.rs`.

Modelling conventions:

* Source text is a `List Nat` of UTF-8 bytes (each `< 256`); Rust guarantees
  `&str` contents are valid UTF-8, which we capture by the executable
  predicate `validUtf8`.
* `u32`/`usize` arithmetic is `Nat`, with an explicit `% 2^32` where the
  Rust code can wrap (position conversion), and plain `Nat` where the Rust
  values provably stay in range.
* The display-width table of the external `unicode_width` crate is an
  abstract parameter `width : Nat → Option Nat` (scalar value ↦ width);
  every theorem holds for an arbitrary table.
* Loops are fueled structural recursions; the fuel passed by each wrapper is
  provably sufficient (each iteration advances at least one byte / chunk),
  which keeps every definition kernel-computable.
* Internal `assert!`s of the Rust code are invariants, not behavior; they are
  restated and proved as theorems where a claim mentions them.
-/

/-- Reinterpret a byte as Rust `i8` (for the SSE2 signed comparisons). -/
def asI8 (b : Nat) : Int := if b < 128 then (b : Int) else (b : Int) - 256

/-- A UTF-8 continuation byte, `0x80 ..= 0xBF`. -/
def contByte (b : Nat) : Bool := decide (128 ≤ b) && decide (b < 192)

/-- Executable validity of a byte list as UTF-8 (RFC 3629: no overlong forms,
no surrogates, at most `U+10FFFF`).  This is the invariant Rust maintains for
the contents of every `&str`. -/
def validUtf8 : List Nat → Bool
  | [] => true
  | b0 :: rest =>
    if b0 < 128 then validUtf8 rest
    else if b0 < 194 then false
    else if b0 < 224 then
      match rest with
      | b1 :: rest1 => contByte b1 && validUtf8 rest1
      | [] => false
    else if b0 < 240 then
      match rest with
      | b1 :: b2 :: rest2 =>
        contByte b1 && contByte b2 &&
        (decide (b0 ≠ 224) || decide (160 ≤ b1)) &&
        (decide (b0 ≠ 237) || decide (b1 < 160)) &&
        validUtf8 rest2
      | _ => false
    else if b0 < 245 then
      match rest with
      | b1 :: b2 :: b3 :: rest3 =>
        contByte b1 && contByte b2 && contByte b3 &&
        (decide (b0 ≠ 240) || decide (144 ≤ b1)) &&
        (decide (b0 ≠ 244) || decide (b1 < 144)) &&
        validUtf8 rest3
      | _ => false
    else false

/-- Decode the UTF-8 scalar value starting at byte index `i` of `src`,
returning `(scalar, encoded length)`.  This models
`src[i..].chars().next().unwrap()` together with `c.len_utf8()`; on valid
UTF-8 at a character boundary it agrees with Rust. -/
def decodeUtf8 (src : List Nat) (i : Nat) : Nat × Nat :=
  let b0 := src.getD i 0
  if b0 < 128 then (b0, 1)
  else if b0 < 224 then ((b0 % 32) * 64 + src.getD (i + 1) 0 % 64, 2)
  else if b0 < 240 then
    ((b0 % 16) * 4096 + (src.getD (i + 1) 0 % 64) * 64 + src.getD (i + 2) 0 % 64, 3)
  else
    ((b0 % 8) * 262144 + (src.getD (i + 1) 0 % 64) * 4096 +
      (src.getD (i + 2) 0 % 64) * 64 + src.getD (i + 3) 0 % 64, 4)

/-- `file.rs`: offset of a multi-byte character and its encoded length. -/
structure MultiByteChar where
  pos : Nat
  bytes : Nat
deriving Repr, DecidableEq

/-- `file.rs`: offset of a non-narrow character in a `SourceFile`. -/
inductive NonNarrowChar where
  | ZeroWidth (pos : Nat)
  | Wide (pos : Nat)
  | Tab (pos : Nat)
deriving Repr, DecidableEq

/-- `NonNarrowChar::new`.  The Rust function panics on a width outside
`{0, 2, 4}`; that case is unreachable from the scanner (the width table
yields only 0, 1 or 2 and tabs are special-cased), and the model collapses
it to `ZeroWidth`. -/
def NonNarrowChar.new (pos : Nat) (width : Nat) : NonNarrowChar :=
  match width with
  | 0 => NonNarrowChar.ZeroWidth pos
  | 2 => NonNarrowChar.Wide pos
  | 4 => NonNarrowChar.Tab pos
  | _ => NonNarrowChar.ZeroWidth pos

/-- `NonNarrowChar::pos`. -/
def NonNarrowChar.pos : NonNarrowChar → Nat
  | NonNarrowChar.ZeroWidth p => p
  | NonNarrowChar.Wide p => p
  | NonNarrowChar.Tab p => p

/-- `NonNarrowChar::width`. -/
def NonNarrowChar.width : NonNarrowChar → Nat
  | NonNarrowChar.ZeroWidth _ => 0
  | NonNarrowChar.Wide _ => 2
  | NonNarrowChar.Tab _ => 4

/-- The three output sequences of the scanner (`lines`, `multi_byte_chars`,
`non_narrow_chars` of `analyze.rs`). -/
structure ScanState where
  lines : List Nat
  multi_byte_chars : List MultiByteChar
  non_narrow_chars : List NonNarrowChar
deriving Repr, DecidableEq

/-- Loop body of `analyze_source_file_generic`: scans `src` from byte index
`i` while `i < scan_len`, recording positions offset by `output_offset`.
The fuel bounds the number of iterations; since every iteration advances
`i` by at least one, fuel `scan_len` suffices from `i = 0`
(`analyze_generic_go_fuel` below makes this irrelevance precise). -/
def analyze_generic_go (width : Nat → Option Nat) (src : List Nat)
    (scan_len output_offset : Nat) : Nat → Nat → ScanState → ScanState × Nat
  | 0, i, st => (st, i - scan_len)
  | fuel + 1, i, st =>
    if i < scan_len then
      let byte := src.getD i 0
      if byte < 32 then
        let pos := i + output_offset
        let st' :=
          if byte = 10 then { st with lines := st.lines ++ [pos + 1] }
          else if byte = 9 then
            { st with non_narrow_chars := st.non_narrow_chars ++ [NonNarrowChar.Tab pos] }
          else
            { st with non_narrow_chars := st.non_narrow_chars ++ [NonNarrowChar.ZeroWidth pos] }
        analyze_generic_go width src scan_len output_offset fuel (i + 1) st'
      else if 127 ≤ byte then
        let c := (decodeUtf8 src i).1
        let char_len := (decodeUtf8 src i).2
        let pos := i + output_offset
        let st1 :=
          if 1 < char_len then
            { st with multi_byte_chars := st.multi_byte_chars ++ [⟨pos, char_len⟩] }
          else st
        let char_width := (width c).getD 0
        let st2 :=
          if char_width ≠ 1 then
            { st1 with non_narrow_chars := st1.non_narrow_chars ++ [NonNarrowChar.new pos char_width] }
          else st1
        analyze_generic_go width src scan_len output_offset fuel (i + char_len) st2
      else
        analyze_generic_go width src scan_len output_offset fuel (i + 1) st
    else (st, i - scan_len)

/-- `analyze_source_file_generic`: scan the first `scan_len` bytes of `src`
(possibly reading past `scan_len` to finish a multi-byte character),
recording all positions offset by `output_offset` into the state; returns
the updated state and the number of bytes consumed past `scan_len`. -/
def analyze_source_file_generic (width : Nat → Option Nat) (src : List Nat)
    (scan_len output_offset : Nat) (st : ScanState) : ScanState × Nat :=
  analyze_generic_go width src scan_len output_offset scan_len 0 st

/-- `_mm_movemask_epi8`: bit `i` of the result is the comparison result of
lane `i`. -/
def movemask : List Bool → Nat
  | [] => 0
  | b :: rest => (if b then 1 else 0) + 2 * movemask rest

/-- `u32::trailing_zeros` (for arguments below `2^32`). -/
def ctz32 (m : Nat) : Nat := (((List.range 32).find? fun i => m.testBit i)).getD 32

/-- The newline-extraction loop of the SSE2 fast path: repeatedly take the
lowest set bit `index` of `mask`, stop at `index ≥ 16`, otherwise push
`index + output_offset` and clear bits `≤ index` with
`mask &= (!1) << index` (32-bit).  Fuel 17 is enough: the mask has bits
16..31 set, and each iteration clears at least one of the 16 low bits. -/
def sse2_newlines_go (output_offset : Nat) : Nat → Nat → List Nat → List Nat
  | 0, _, acc => acc
  | fuel + 1, mask, acc =>
    let index := ctz32 mask
    if 16 ≤ index then acc
    else
      sse2_newlines_go output_offset fuel (mask &&& ((4294967294 <<< index) % 4294967296))
        (acc ++ [index + output_offset])

/-- Chunk loop of `analyze_source_file_sse2`.  `fuel` is the number of
chunks still to process (`chunk_count - chunk_index`); returns the state
and the final `intra_chunk_offset`. -/
def sse2_go (width : Nat → Option Nat) (src : List Nat) :
    Nat → Nat → Nat → ScanState → ScanState × Nat
  | 0, _, intra, st => (st, intra)
  | fuel + 1, chunk_index, intra, st =>
    let chunk := (src.drop (chunk_index * 16)).take 16
    let multibyte_mask := movemask (chunk.map fun b => decide (asI8 b < 0))
    let control_char_mask :=
      movemask (chunk.map fun b => decide (asI8 b < 32)) |||
      movemask (chunk.map fun b => decide (b = 127))
    let newlines_mask := movemask (chunk.map fun b => decide (b = 10))
    if multibyte_mask = 0 ∧ control_char_mask = 0 then
      -- no control characters, nothing to record for this chunk
      sse2_go width src fuel (chunk_index + 1) intra st
    else if multibyte_mask = 0 ∧ control_char_mask = newlines_mask then
      -- all control characters are newlines: batch-append them from the mask
      let st' :=
        { st with lines :=
            sse2_newlines_go (chunk_index * 16 + 1) 17 (4294901760 ||| newlines_mask) st.lines }
      sse2_go width src fuel (chunk_index + 1) intra st'
    else
      -- the slow path: fall back to generic decoding for this chunk
      let scan_start := chunk_index * 16 + intra
      let r := analyze_source_file_generic width (src.drop scan_start) (16 - intra) scan_start st
      sse2_go width src fuel (chunk_index + 1) r.2 r.1

/-- `analyze_source_file_sse2`: process `src.len() / 16` full chunks, then
let the generic algorithm scan the remaining tail. -/
def analyze_source_file_sse2 (width : Nat → Option Nat) (src : List Nat)
    (st : ScanState) : ScanState :=
  let chunk_count := src.length / 16
  let r := sse2_go width src chunk_count 0 0 st
  let tail_start := chunk_count * 16 + r.2
  if tail_start < src.length then
    (analyze_source_file_generic width (src.drop tail_start) (src.length - tail_start)
      tail_start r.1).1
  else r.1

/-- `analyze_source_file_dispatch`: `use_sse2` models the runtime
`is_x86_feature_detected!("sse2")` / target-architecture choice. -/
def analyze_source_file_dispatch (width : Nat → Option Nat) (use_sse2 : Bool)
    (src : List Nat) (st : ScanState) : ScanState :=
  if use_sse2 then analyze_source_file_sse2 width src st
  else (analyze_source_file_generic width src src.length 0 st).1

/-- `analyze_source_file`: start from `lines = [0]`, dispatch, then remove
the optimistically recorded line start at end-of-file if the source ends
with a newline. -/
def analyze_source_file (width : Nat → Option Nat) (use_sse2 : Bool) (src : List Nat) :
    List Nat × List MultiByteChar × List NonNarrowChar :=
  let st := analyze_source_file_dispatch width use_sse2 src
    { lines := [0], multi_byte_chars := [], non_narrow_chars := [] }
  let lines := if st.lines.getLast? = some src.length then st.lines.dropLast else st.lines
  (lines, st.multi_byte_chars, st.non_narrow_chars)

/-- A width table used to instantiate witnesses: all scalars narrow. -/
def narrowWidth : Nat → Option Nat := fun _ => some 1

/-- A width table used to instantiate witnesses, remembering that the table
may return `none` (control scalars) or wide characters. -/
def sampleWidth : Nat → Option Nat := fun c =>
  if c < 32 then none
  else if c = 127 then none
  else if 19968 ≤ c ∧ c ≤ 40959 then some 2
  else some 1

example :
    analyze_source_file narrowWidth false [97, 10, 99] = ([0, 2], [], []) := by decide

example :
    analyze_source_file narrowWidth true [97, 10, 99] = ([0, 2], [], []) := by decide

-- "01234β789\nbcdef0123456789abcdef" (β = CE B2): lines [0, 11], mbc (5, 2)
example :
    analyze_source_file sampleWidth true
      [48, 49, 50, 51, 52, 206, 178, 55, 56, 57, 10,
       98, 99, 100, 101, 102, 48, 49, 50, 51, 52, 53, 54, 55, 56, 57,
       97, 98, 99, 100, 101, 102] =
    ([0, 11], [⟨5, 2⟩], []) := by decide

example :
    analyze_source_file sampleWidth false
      [48, 49, 50, 51, 52, 206, 178, 55, 56, 57, 10,
       98, 99, 100, 101, 102, 48, 49, 50, 51, 52, 53, 54, 55, 56, 57,
       97, 98, 99, 100, 101, 102] =
    ([0, 11], [⟨5, 2⟩], []) := by decide

-- "01\t345\n789abcΔf01234567\u{07}9\nbcΔf" (Δ = CE 94)
example :
    analyze_source_file sampleWidth true
      [48, 49, 9, 51, 52, 53, 10, 55, 56, 57, 97, 98, 99, 206, 148, 102,
       48, 49, 50, 51, 52, 53, 54, 55, 7, 57, 10, 98, 99, 206, 148, 102] =
    ([0, 7, 27], [⟨13, 2⟩, ⟨29, 2⟩],
     [NonNarrowChar.Tab 2, NonNarrowChar.ZeroWidth 24]) := by decide

/-! ## `file.rs`: the `SourceFile` record and its query surface -/

/-- `SourceFileHashAlgorithm`. -/
inductive SourceFileHashAlgorithm where
  | Md5
  | Sha1
  | Sha256
deriving Repr, DecidableEq

/-- `SourceFileHash`: the hash kind together with the 32-byte value buffer. -/
structure SourceFileHash where
  kind : SourceFileHashAlgorithm
  value : List Nat
deriving Repr, DecidableEq

/-- `SourceFileHash::hash_len`. -/
def SourceFileHash.hash_len (h : SourceFileHash) : Nat :=
  match h.kind with
  | SourceFileHashAlgorithm.Md5 => 16
  | SourceFileHashAlgorithm.Sha1 => 20
  | SourceFileHashAlgorithm.Sha256 => 32

/-- `SourceFileHash::new`.  The value buffer starts zeroed (`Default`), a
mutable slice of its first `hash_len` bytes is taken, and each branch of the
`match` on the algorithm leaves it untouched (the digest calls are commented
out behind a `TODO`). -/
def SourceFileHash.new (kind : SourceFileHashAlgorithm) (_src : List Nat) :
    SourceFileHash :=
  let hash : SourceFileHash := { kind := kind, value := List.replicate 32 0 }
  match kind with
  | SourceFileHashAlgorithm.Md5 => hash
  | SourceFileHashAlgorithm.Sha1 => hash
  | SourceFileHashAlgorithm.Sha256 => hash

/-- `SourceFileHash::matches`. -/
def SourceFileHash.matches (h : SourceFileHash) (src : List Nat) : Bool :=
  SourceFileHash.new h.kind src == h

/-- `SourceFileHash::hash_bytes`. -/
def SourceFileHash.hash_bytes (h : SourceFileHash) : List Nat :=
  h.value.take h.hash_len

/-- `OffsetOverflowError`. -/
structure OffsetOverflowError where
deriving Repr, DecidableEq

/-- The `SourceFile` record.  The `name` and `stable_id` fields (opaque
display bookkeeping and an external-hasher digest of the name) carry no
position information and are not modelled; every claim concerns the fields
below. -/
structure SourceFile where
  src : Option (List Nat)
  src_hash : SourceFileHash
  start_pos : Nat
  source_len : Nat
  lines : List Nat
  multibyte_chars : List MultiByteChar
  non_narrow_chars : List NonNarrowChar
deriving Repr, DecidableEq

/-- `SourceFile::new`: hash the source, reject it if its length does not fit
`u32`, otherwise run the scanner once and freeze the record with
`start_pos = 0`. -/
def SourceFile.new (width : Nat → Option Nat) (use_sse2 : Bool) (src : List Nat)
    (hash_kind : SourceFileHashAlgorithm) : Except OffsetOverflowError SourceFile :=
  let src_hash := SourceFileHash.new hash_kind src
  if src.length < 4294967296 then
    let r := analyze_source_file width use_sse2 src
    Except.ok
      { src := some src
        src_hash := src_hash
        start_pos := 0
        source_len := src.length
        lines := r.1
        multibyte_chars := r.2.1
        non_narrow_chars := r.2.2 }
  else Except.error {}

/-- `SourceFile::absolute_position`: `pos + start_pos` in `u32`. -/
def SourceFile.absolute_position (sf : SourceFile) (pos : Nat) : Nat :=
  (pos + sf.start_pos) % 4294967296

/-- `SourceFile::relative_position`: `pos - start_pos` in `u32`. -/
def SourceFile.relative_position (sf : SourceFile) (pos : Nat) : Nat :=
  (4294967296 + pos - sf.start_pos) % 4294967296

/-- `SourceFile::lookup_line` uses `partition_point`, the index of the first
element of the (partitioned) line table that fails the predicate.  For a
partitioned slice this is the length of its satisfying prefix. -/
def partition_point (l : List Nat) (pred : Nat → Bool) : Nat :=
  (l.takeWhile pred).length

/-- `SourceFile::lookup_line`:
`self.lines().partition_point(|x| x <= &pos).checked_sub(1)`. -/
def SourceFile.lookup_line (sf : SourceFile) (pos : Nat) : Option Nat :=
  let pp := partition_point sf.lines fun x => decide (x ≤ pos)
  if pp = 0 then none else some (pp - 1)

/-- The loop of `bytepos_to_file_charpos`: sum `bytes - 1` over the
multi-byte records with `pos < bpos`, stopping at the first record at or
past `bpos` (the records are position-sorted). -/
def total_extra_bytes : List MultiByteChar → Nat → Nat
  | [], _ => 0
  | mbc :: rest, bpos =>
    if mbc.pos < bpos then (mbc.bytes - 1) + total_extra_bytes rest bpos else 0

/-- `SourceFile::bytepos_to_file_charpos`: subtract the extra bytes of the
multi-byte characters before `bpos`.  The Rust asserts (`bpos` is never
strictly inside a multi-byte character; the sum never exceeds `bpos`) are
proved as theorems below. -/
def SourceFile.bytepos_to_file_charpos (sf : SourceFile) (bpos : Nat) : Nat :=
  bpos - total_extra_bytes sf.multibyte_chars bpos

/-- `SourceFile::lookup_file_pos`: 1-based line and 0-based character column
for a relative byte position. -/
def SourceFile.lookup_file_pos (sf : SourceFile) (pos : Nat) : Nat × Nat :=
  let chpos := sf.bytepos_to_file_charpos pos
  match sf.lookup_line pos with
  | some a =>
    let line := a + 1
    let linebpos := sf.lines.getD a 0
    let linechpos := sf.bytepos_to_file_charpos linebpos
    (line, chpos - linechpos)
  | none => (0, chpos)

/-- `slice::binary_search_by_key(&key, |x| x.pos()).unwrap_or_else(|x| x)`
on a list sorted by strictly increasing position: both the `Ok` index and
the `Err` insertion point equal the number of entries with position below
the key. -/
def binary_search_idx (l : List NonNarrowChar) (key : Nat) : Nat :=
  l.countP fun x => decide (x.pos < key)

/-- `SourceFile::lookup_file_pos_with_col_display`. -/
def SourceFile.lookup_file_pos_with_col_display (sf : SourceFile) (pos : Nat) :
    Nat × Nat × Nat :=
  let rpos := sf.relative_position pos
  let r := sf.lookup_file_pos rpos
  if 0 < r.1 then
    let col := r.2
    let linebpos := sf.lines.getD (r.1 - 1) 0
    let start_width_idx := binary_search_idx sf.non_narrow_chars linebpos
    let end_width_idx := binary_search_idx sf.non_narrow_chars rpos
    let special_chars := end_width_idx - start_width_idx
    let non_narrow :=
      (((sf.non_narrow_chars.drop start_width_idx).take (end_width_idx - start_width_idx)).map
        NonNarrowChar.width).sum
    (r.1, col, col - special_chars + non_narrow)
  else
    let chpos := r.2
    let end_width_idx := binary_search_idx sf.non_narrow_chars rpos
    let non_narrow := ((sf.non_narrow_chars.take end_width_idx).map NonNarrowChar.width).sum
    (0, chpos, chpos - end_width_idx + non_narrow)

/-- Marker for a Rust panic from an out-of-bounds / out-of-order string
slice. -/
structure SlicePanic where
deriving Repr, DecidableEq

/-- Rust `&src[a..b]` on byte indices: panics (models as `error`) unless
`a ≤ b ≤ src.len()`. -/
def sliceRange (src : List Nat) (a b : Nat) : Except SlicePanic (List Nat) :=
  if a ≤ b ∧ b ≤ src.length then Except.ok ((src.drop a).take (b - a))
  else Except.error {}

/-- `SourceFile::get_lines` with an inclusive index range `start ..= last`:
slice from the first line's start to the newline terminating the second
line (found by scanning forward from the second line's start), or to
end-of-file.  Absent source or an out-of-range index gives `none`; a slice
with out-of-order bounds propagates the Rust panic. -/
def SourceFile.get_lines (sf : SourceFile) (start last : Nat) :
    Except SlicePanic (Option (List Nat)) :=
  match sf.src with
  | none => Except.ok none
  | some src =>
    match sf.lines.get? start, sf.lines.get? last with
    | some s, some e =>
      match (src.drop e).findIdx? (fun b => decide (b = 10)) with
      | some ofs => (sliceRange src s (e + ofs)).map some
      | none => (sliceRange src s src.length).map some
    | _, _ => Except.ok none

instance {e a : Type} [DecidableEq e] [DecidableEq a] : DecidableEq (Except e a) :=
  fun x y =>
    match x, y with
    | Except.ok u, Except.ok v =>
      if h : u = v then isTrue (by rw [h]) else isFalse (by simp [h])
    | Except.error u, Except.error v =>
      if h : u = v then isTrue (by rw [h]) else isFalse (by simp [h])
    | Except.ok _, Except.error _ => isFalse (by simp)
    | Except.error _, Except.ok _ => isFalse (by simp)

example :
    (SourceFile.new narrowWidth true [97, 10, 98] SourceFileHashAlgorithm.Md5).map
      (fun sf => sf.lines) = Except.ok [0, 2] := by decide

example :
    (SourceFile.new narrowWidth true [97, 10, 98] SourceFileHashAlgorithm.Md5).map
      (fun sf => sf.get_lines 1 0) = Except.ok (Except.error {}) := by decide

example :
    (SourceFile.new narrowWidth false [97, 10, 98] SourceFileHashAlgorithm.Md5).map
      (fun sf => sf.lookup_file_pos 2) = Except.ok (2, 0) := by decide

example :
    (SourceFile.new narrowWidth true [97, 10, 98] SourceFileHashAlgorithm.Md5).map
      (fun sf => sf.get_lines 0 1) = Except.ok (Except.ok (some [97, 10, 98])) := by decide

/-! ## Sample records used to instantiate witnesses -/

/-- A concrete `SourceFile` ("a\nc" placed at absolute offset 7). -/
def sampleFileA : SourceFile :=
  { src := some [97, 10, 99]
    src_hash := SourceFileHash.new SourceFileHashAlgorithm.Md5 [97, 10, 99]
    start_pos := 7
    source_len := 3
    lines := [0, 2]
    multibyte_chars := []
    non_narrow_chars := [] }

/-- A concrete `SourceFile` for "aβc\nd\tΔe" (β, Δ two-byte wide=1 chars;
tab on line 2), `start_pos = 0`. -/
def sampleFileB : SourceFile :=
  { src := some [97, 206, 178, 99, 10, 100, 9, 206, 148, 101]
    src_hash := SourceFileHash.new SourceFileHashAlgorithm.Sha1 [97, 206, 178, 99, 10, 100, 9, 206, 148, 101]
    start_pos := 0
    source_len := 10
    lines := [0, 5]
    multibyte_chars := [⟨1, 2⟩, ⟨7, 2⟩]
    non_narrow_chars := [NonNarrowChar.Tab 6] }

/-! ## C5: absolute/relative position round trip -/

/-- C5: for every `SourceFile` and every absolute byte position `x` with
`x ≥ start_pos` (and `x` representable in `u32`),
`absolute_position (relative_position x) = x`. -/
theorem c5_absolute_relative_round_trip (sf : SourceFile) (x : Nat)
    (h1 : sf.start_pos ≤ x) (h2 : x < 4294967296) :
    sf.absolute_position (sf.relative_position x) = x := by
  unfold SourceFile.absolute_position SourceFile.relative_position
  omega

/-- Witness for C5 at `sampleFileA` and `x = 9`. -/
theorem c5_witness :
    sampleFileA.start_pos ≤ 9 ∧ 9 < 4294967296 ∧
      sampleFileA.absolute_position (sampleFileA.relative_position 9) = 9 :=
  ⟨by decide, by decide, c5_absolute_relative_round_trip sampleFileA 9 (by decide) (by decide)⟩

/-! ## C8: construction fails exactly on u32 overflow -/

/-- C8: `SourceFile::new` returns an `OffsetOverflowError` iff the source
length does not fit in `u32` (`≥ 2^32`); for every shorter text the
construction succeeds. -/
theorem c8_new_err_iff_overflow (width : Nat → Option Nat) (use_sse2 : Bool)
    (src : List Nat) (kind : SourceFileHashAlgorithm) :
    (SourceFile.new width use_sse2 src kind).isOk = decide (src.length < 4294967296) := by
  unfold SourceFile.new
  by_cases h : src.length < 4294967296 <;> simp [h, Except.isOk, Except.toBool]

/-! ## C9: the hash value is never filled in -/

/-- C9: for every algorithm kind and source, `SourceFileHash::new` leaves
the 32-byte value entirely zero (the digest calls are commented out), and
consequently `matches` accepts every string. -/
theorem c9_hash_always_zero_and_matches (kind : SourceFileHashAlgorithm)
    (s1 s2 : List Nat) :
    (SourceFileHash.new kind s1).value = List.replicate 32 0 ∧
      (SourceFileHash.new kind s1).matches s2 = true := by
  cases kind <;> simp [SourceFileHash.new, SourceFileHash.matches]

/-! ## C10: out-of-order `get_lines` range panics -/

/-- C10: on the two-line file "a\nb", `get_lines` with the in-range but
out-of-order inclusive range `1 ..= 0` hits an out-of-order string slice
(`&src[2..1]`), which panics in Rust, instead of returning `None` or a
slice. -/
theorem c10_get_lines_out_of_order_panics :
    (SourceFile.new narrowWidth false [97, 10, 98] SourceFileHashAlgorithm.Md5).map
      (fun sf => sf.get_lines 1 0) = Except.ok (Except.error {}) := by decide

/-! ## Helpers about `takeWhile` on a strictly increasing line table -/

/-- Every position indexed inside the `takeWhile` prefix satisfies the
predicate. -/
theorem takeWhile_getD_sat (p : Nat → Bool) :
    ∀ (l : List Nat) (j d : Nat), j < (l.takeWhile p).length → p (l.getD j d) = true := by
  intro l
  induction l with
  | nil => intro j d h; simp [List.takeWhile] at h
  | cons x t ih =>
    intro j d h
    rw [List.takeWhile_cons] at h
    by_cases hx : p x
    · simp only [hx, if_true, List.length_cons] at h
      cases j with
      | zero => simpa using hx
      | succ j => exact ih j d (Nat.lt_of_succ_lt_succ h)
    · simp [hx] at h

/-- On a strictly increasing list, the `≤ l[i]` prefix has length exactly
`i + 1`. -/
theorem takeWhile_le_elem_length :
    ∀ (l : List Nat) (i pos : Nat), List.Pairwise (· < ·) l → i < l.length →
      l.getD i 0 = pos → (l.takeWhile fun x => decide (x ≤ pos)).length = i + 1 := by
  intro l
  induction l with
  | nil => intro i pos _ hi; simp at hi
  | cons x t ih =>
    intro i pos hpw hi hpos
    have hhead : ∀ y ∈ t, x < y := fun y hy => (List.pairwise_cons.mp hpw).1 y hy
    have htail : List.Pairwise (· < ·) t := (List.pairwise_cons.mp hpw).2
    cases i with
    | zero =>
      simp only [List.getD_cons_zero] at hpos
      subst hpos
      rw [List.takeWhile_cons]
      simp only [decide_eq_true_eq, Nat.le_refl, if_true]
      cases t with
      | nil => simp [List.takeWhile]
      | cons y t' =>
        have hxy : x < y := hhead y (List.mem_cons_self y t')
        rw [List.takeWhile_cons]
        simp [Nat.not_le_of_lt hxy]
    | succ j =>
      simp only [List.getD_cons_succ] at hpos
      have hj : j < t.length := Nat.lt_of_succ_lt_succ hi
      have hmem : t.getD j 0 ∈ t := by
        rw [List.getD_eq_getElem t 0 hj]
        exact List.getElem_mem hj
      have hle : x ≤ pos := by
        have := hhead (t.getD j 0) hmem
        omega
      rw [List.takeWhile_cons]
      simp only [decide_eq_true_eq, hle, if_true, List.length_cons]
      rw [ih j pos htail hj hpos]

/-! ## C6: lookup at a recorded line start gives column 0 -/

/-- C6: for a strictly increasing line table and any recorded line start
`lines[i]`, `lookup_file_pos` returns line `i + 1` and column `0`. -/
theorem c6_lookup_line_start_col_zero (sf : SourceFile) (i : Nat)
    (hpw : List.Pairwise (· < ·) sf.lines) (hi : i < sf.lines.length) :
    sf.lookup_file_pos (sf.lines.getD i 0) = (i + 1, 0) := by
  unfold SourceFile.lookup_file_pos SourceFile.lookup_line partition_point
  rw [takeWhile_le_elem_length sf.lines i (sf.lines.getD i 0) hpw hi rfl]
  simp

/-- Witness for C6 on `sampleFileB` at line index 1. -/
theorem c6_witness :
    List.Pairwise (· < ·) sampleFileB.lines ∧ 1 < sampleFileB.lines.length ∧
      sampleFileB.lookup_file_pos (sampleFileB.lines.getD 1 0) = (2, 0) :=
  ⟨by decide, by decide, c6_lookup_line_start_col_zero sampleFileB 1 (by decide) (by decide)⟩

/-! ## C4: byte→char conversion is monotone and never negative -/

/-- The extra-byte sum over records before `p`, all of whose spans start at
or after `lo` and none of which strictly contains `p`, is at most
`p - lo`. -/
theorem total_extra_le :
    ∀ (l : List MultiByteChar) (p lo : Nat),
      List.Pairwise (fun a b => a.pos + a.bytes ≤ b.pos) l →
      (∀ m ∈ l, lo ≤ m.pos) →
      (∀ m ∈ l, ¬(m.pos < p ∧ p < m.pos + m.bytes)) →
      total_extra_bytes l p ≤ p - lo := by
  intro l
  induction l with
  | nil => intro p lo _ _ _; simp [total_extra_bytes]
  | cons m t ih =>
    intro p lo hpw hlo hins
    have hhead : ∀ x ∈ t, m.pos + m.bytes ≤ x.pos := fun x hx =>
      (List.pairwise_cons.mp hpw).1 x hx
    have htail : List.Pairwise (fun a b => a.pos + a.bytes ≤ b.pos) t :=
      (List.pairwise_cons.mp hpw).2
    unfold total_extra_bytes
    by_cases hmp : m.pos < p
    · have hend : m.pos + m.bytes ≤ p := by
        have := hins m (List.mem_cons_self m t)
        omega
      have hrec := ih p (m.pos + m.bytes) htail (fun x hx => hhead x hx)
        (fun x hx => hins x (List.mem_cons_of_mem m hx))
      have hlom := hlo m (List.mem_cons_self m t)
      simp only [hmp, if_true]
      omega
    · simp [hmp]

/-- The extra-byte sum grows by at most `q - p` between positions `p ≤ q`
that both avoid the interior of every span. -/
theorem total_extra_mono :
    ∀ (l : List MultiByteChar) (p q : Nat),
      List.Pairwise (fun a b => a.pos + a.bytes ≤ b.pos) l →
      (∀ m ∈ l, ¬(m.pos < q ∧ q < m.pos + m.bytes)) →
      p ≤ q →
      total_extra_bytes l q ≤ total_extra_bytes l p + (q - p) := by
  intro l
  induction l with
  | nil => intro p q _ _ _; simp [total_extra_bytes]
  | cons m t ih =>
    intro p q hpw hq hpq
    have hhead : ∀ x ∈ t, m.pos + m.bytes ≤ x.pos := fun x hx =>
      (List.pairwise_cons.mp hpw).1 x hx
    have htail : List.Pairwise (fun a b => a.pos + a.bytes ≤ b.pos) t :=
      (List.pairwise_cons.mp hpw).2
    by_cases hmq : m.pos < q
    · by_cases hmp : m.pos < p
      · have hrec := ih p q htail (fun x hx => hq x (List.mem_cons_of_mem m hx)) hpq
        unfold total_extra_bytes
        simp only [hmq, hmp, if_true]
        omega
      · have hle := total_extra_le (m :: t) q p hpw
          (by
            intro x hx
            rcases List.mem_cons.mp hx with rfl | hx
            · omega
            · have := hhead x hx; omega)
          hq
        have hzero : total_extra_bytes (m :: t) p = 0 := by
          unfold total_extra_bytes; simp [hmp]
        omega
    · have hzero : total_extra_bytes (m :: t) q = 0 := by
        unfold total_extra_bytes; simp [hmq]
      omega

/-- C4: for a `SourceFile` whose multi-byte records are sorted and disjoint,
and byte positions not strictly inside any multi-byte span,
`bytepos_to_file_charpos` is monotone non-decreasing, and the subtracted
extra-byte sum never exceeds the byte position (the result is never
negative; this is the Rust `assert!(total_extra_bytes <= bpos.to_u32())`). -/
theorem c4_bytepos_to_charpos_monotone (sf : SourceFile) (p q : Nat)
    (hsorted : List.Pairwise (fun a b => a.pos + a.bytes ≤ b.pos) sf.multibyte_chars)
    (hp : ∀ m ∈ sf.multibyte_chars, ¬(m.pos < p ∧ p < m.pos + m.bytes))
    (hq : ∀ m ∈ sf.multibyte_chars, ¬(m.pos < q ∧ q < m.pos + m.bytes))
    (hpq : p ≤ q) :
    sf.bytepos_to_file_charpos p ≤ sf.bytepos_to_file_charpos q ∧
      total_extra_bytes sf.multibyte_chars p ≤ p ∧
      total_extra_bytes sf.multibyte_chars q ≤ q := by
  have h1 := total_extra_le sf.multibyte_chars p 0 hsorted (by intro m _; omega) hp
  have h2 := total_extra_le sf.multibyte_chars q 0 hsorted (by intro m _; omega) hq
  have h3 := total_extra_mono sf.multibyte_chars p q hsorted hq hpq
  unfold SourceFile.bytepos_to_file_charpos
  omega

/-- Witness for C4 on `sampleFileB` with `p = 3`, `q = 9`. -/
theorem c4_witness :
    sampleFileB.bytepos_to_file_charpos 3 ≤ sampleFileB.bytepos_to_file_charpos 9 ∧
      total_extra_bytes sampleFileB.multibyte_chars 3 ≤ 3 ∧
      total_extra_bytes sampleFileB.multibyte_chars 9 ≤ 9 :=
  c4_bytepos_to_charpos_monotone sampleFileB 3 9 (by decide) (by decide) (by decide)
    (by decide)

/-! ## C7: display column via the non-narrow records on the line -/

/-- Splitting a `< b` count at `a ≤ b`: the entries below `b` are the
entries below `a` plus the entries in `[a, b)`. -/
theorem countP_lt_split :
    ∀ (l : List NonNarrowChar) (a b : Nat), a ≤ b →
      (l.countP fun x => decide (x.pos < b)) =
        (l.countP fun x => decide (x.pos < a)) +
          (l.filter fun x => decide (a ≤ x.pos) && decide (x.pos < b)).length := by
  intro l a b hab
  induction l with
  | nil => simp
  | cons x t ih =>
    simp only [List.countP_cons, List.filter_cons]
    by_cases h1 : x.pos < a
    · have h2 : x.pos < b := Nat.lt_of_lt_of_le h1 hab
      have h1' : ¬ a ≤ x.pos := by omega
      simp [h1, h2, h1']
      omega
    · by_cases h2 : x.pos < b
      · have h1' : a ≤ x.pos := by omega
        simp [h1, h2, h1']
        omega
      · simp [h1, h2]
        omega

/-- On a position-sorted list, taking the first `countP (pos < b)` entries
yields exactly the entries with position below `b`. -/
theorem take_countP_of_sorted :
    ∀ (l : List NonNarrowChar), List.Pairwise (fun x y => x.pos < y.pos) l →
      ∀ b : Nat,
        l.take (l.countP fun x => decide (x.pos < b)) = l.filter fun x => decide (x.pos < b) := by
  intro l
  induction l with
  | nil => intro _ b; simp
  | cons x t ih =>
    intro hpw b
    have hhead : ∀ y ∈ t, x.pos < y.pos := fun y hy => (List.pairwise_cons.mp hpw).1 y hy
    have htail : List.Pairwise (fun x y => x.pos < y.pos) t := (List.pairwise_cons.mp hpw).2
    simp only [List.countP_cons, List.filter_cons]
    by_cases hx : x.pos < b
    · simp only [hx, decide_True, decide_eq_true_eq, if_true, List.take_succ_cons]
      rw [ih htail b]
    · have hz : (t.countP fun y => decide (y.pos < b)) = 0 := by
        rw [List.countP_eq_zero]
        intro y hy
        have := hhead y hy
        simp only [decide_eq_true_eq]
        omega
      have hzf : (t.filter fun y => decide (y.pos < b)) = [] := by
        rw [List.filter_eq_nil_iff]
        intro y hy
        have := hhead y hy
        simp only [decide_eq_true_eq]
        omega
      simp [hx, hz, hzf]

/-- On a position-sorted list, dropping the first `countP (pos < a)` entries
yields exactly the entries with position at or past `a`. -/
theorem drop_countP_of_sorted :
    ∀ (l : List NonNarrowChar), List.Pairwise (fun x y => x.pos < y.pos) l →
      ∀ a : Nat,
        l.drop (l.countP fun x => decide (x.pos < a)) = l.filter fun x => decide (a ≤ x.pos) := by
  intro l
  induction l with
  | nil => intro _ a; simp
  | cons x t ih =>
    intro hpw a
    have hhead : ∀ y ∈ t, x.pos < y.pos := fun y hy => (List.pairwise_cons.mp hpw).1 y hy
    have htail : List.Pairwise (fun x y => x.pos < y.pos) t := (List.pairwise_cons.mp hpw).2
    simp only [List.countP_cons, List.filter_cons]
    by_cases hx : x.pos < a
    · have hxa : ¬ a ≤ x.pos := by omega
      simp only [hx, hxa, decide_True, decide_False, decide_eq_true_eq, if_true, if_false,
        List.drop_succ_cons, Bool.false_eq_true]
      rw [ih htail a]
    · have hxa : a ≤ x.pos := by omega
      have hz : (t.countP fun y => decide (y.pos < a)) = 0 := by
        rw [List.countP_eq_zero]
        intro y hy
        have := hhead y hy
        simp only [decide_eq_true_eq]
        omega
      have hself : (t.filter fun y => decide (a ≤ y.pos)) = t := by
        rw [List.filter_eq_self]
        intro y hy
        have := hhead y hy
        simp only [decide_eq_true_eq]
        omega
      simp [hx, hxa, hz, hself]

/-- The `[start_width_idx, end_width_idx)` slice of a position-sorted
non-narrow table is exactly its sublist of records with position in
`[a, b)`. -/
theorem slice_eq_filter_between (l : List NonNarrowChar)
    (hs : List.Pairwise (fun x y => x.pos < y.pos) l) (a b : Nat) (hab : a ≤ b) :
    ((l.drop (l.countP fun x => decide (x.pos < a))).take
        ((l.countP fun x => decide (x.pos < b)) - (l.countP fun x => decide (x.pos < a)))) =
      l.filter fun x => decide (a ≤ x.pos) && decide (x.pos < b) := by
  rw [drop_countP_of_sorted l hs a]
  have hsf : List.Pairwise (fun x y => x.pos < y.pos)
      (l.filter fun x => decide (a ≤ x.pos)) := hs.filter _
  have hcount :
      ((l.filter fun x => decide (a ≤ x.pos)).countP fun x => decide (x.pos < b)) =
        (l.countP fun x => decide (x.pos < b)) - (l.countP fun x => decide (x.pos < a)) := by
    rw [List.countP_filter]
    have hsplit := countP_lt_split l a b hab
    have : (l.countP fun x => decide (x.pos < b) && decide (a ≤ x.pos)) =
        (l.filter fun x => decide (a ≤ x.pos) && decide (x.pos < b)).length := by
      rw [List.countP_eq_length_filter]
      congr 1
      apply List.filter_congr
      intro y _
      exact Bool.and_comm _ _
    omega
  rw [← hcount, take_countP_of_sorted _ hsf b, List.filter_filter]
  apply List.filter_congr
  intro y _
  exact Bool.and_comm _ _

/-- On a found line, the line-start position used by the display-column
computation is at most the queried relative position. -/
theorem lookup_linebpos_le (sf : SourceFile) (rpos : Nat)
    (h : 0 < (sf.lookup_file_pos rpos).1) :
    sf.lines.getD ((sf.lookup_file_pos rpos).1 - 1) 0 ≤ rpos := by
  unfold SourceFile.lookup_file_pos SourceFile.lookup_line partition_point at h ⊢
  by_cases h0 : (sf.lines.takeWhile fun x => decide (x ≤ rpos)).length = 0
  · simp [h0] at h
  · simp only [h0, if_false] at h ⊢
    have hj : (sf.lines.takeWhile fun x => decide (x ≤ rpos)).length - 1 <
        (sf.lines.takeWhile fun x => decide (x ≤ rpos)).length := by omega
    have := takeWhile_getD_sat (fun x => decide (x ≤ rpos)) sf.lines
      ((sf.lines.takeWhile fun x => decide (x ≤ rpos)).length - 1) 0 hj
    simp only [decide_eq_true_eq] at this
    simpa using this

/-- C7: on a found line, the display column equals the character column,
minus one for each non-narrow record whose position lies in
`[line_start, pos)`, plus the sum of those records' display widths
(0 for `ZeroWidth`, 2 for `Wide`, 4 for `Tab`). -/
theorem c7_display_column (sf : SourceFile) (pos : Nat)
    (hs : List.Pairwise (fun x y => x.pos < y.pos) sf.non_narrow_chars)
    (hline : 0 < (sf.lookup_file_pos (sf.relative_position pos)).1) :
    sf.lookup_file_pos_with_col_display pos =
      ((sf.lookup_file_pos (sf.relative_position pos)).1,
        (sf.lookup_file_pos (sf.relative_position pos)).2,
        (sf.lookup_file_pos (sf.relative_position pos)).2
          - (sf.non_narrow_chars.filter fun x =>
              decide (sf.lines.getD ((sf.lookup_file_pos (sf.relative_position pos)).1 - 1) 0
                  ≤ x.pos) &&
                decide (x.pos < sf.relative_position pos)).length
          + ((sf.non_narrow_chars.filter fun x =>
              decide (sf.lines.getD ((sf.lookup_file_pos (sf.relative_position pos)).1 - 1) 0
                  ≤ x.pos) &&
                decide (x.pos < sf.relative_position pos)).map NonNarrowChar.width).sum) := by
  have hle := lookup_linebpos_le sf (sf.relative_position pos) hline
  have hslice := slice_eq_filter_between sf.non_narrow_chars hs
    (sf.lines.getD ((sf.lookup_file_pos (sf.relative_position pos)).1 - 1) 0)
    (sf.relative_position pos) hle
  have hsplit := countP_lt_split sf.non_narrow_chars
    (sf.lines.getD ((sf.lookup_file_pos (sf.relative_position pos)).1 - 1) 0)
    (sf.relative_position pos) hle
  unfold SourceFile.lookup_file_pos_with_col_display binary_search_idx
  simp only [hline, if_true]
  rw [hslice]
  have hcount :
      (sf.non_narrow_chars.countP fun x =>
          decide (x.pos < sf.relative_position pos)) -
        (sf.non_narrow_chars.countP fun x =>
          decide (x.pos <
            sf.lines.getD ((sf.lookup_file_pos (sf.relative_position pos)).1 - 1) 0)) =
      (sf.non_narrow_chars.filter fun x =>
          decide (sf.lines.getD ((sf.lookup_file_pos (sf.relative_position pos)).1 - 1) 0
              ≤ x.pos) &&
            decide (x.pos < sf.relative_position pos)).length := by
      omega
  rw [hcount]

/-- Witness for C7: in `sampleFileB` ("aβc\nd\tΔe"), position 9 sits after
the tab on line 2 at raw column 3; its display column is
`3 - 1 + 4 = 6`. -/
theorem c7_witness :
    sampleFileB.lookup_file_pos_with_col_display 9 = (2, 3, 3 - 1 + 4) := by
  have h := c7_display_column sampleFileB 9 (by decide) (by decide)
  rw [h]
  decide

/-! ## Structure of one iteration of the generic scanner loop -/

/-- Bounds on the decoded length: always between 1 and 4. -/
theorem decodeUtf8_len_bounds (src : List Nat) (i : Nat) :
    1 ≤ (decodeUtf8 src i).2 ∧ (decodeUtf8 src i).2 ≤ 4 := by
  simp only [decodeUtf8]
  split_ifs <;> simp

/-- How far one iteration of the generic loop advances from byte `i`. -/
def genericStepLen (src : List Nat) (i : Nat) : Nat :=
  let byte := src.getD i 0
  if byte < 32 then 1
  else if 127 ≤ byte then (decodeUtf8 src i).2
  else 1

/-- What one iteration of the generic loop appends to the state at byte
`i` (positions offset by `output_offset`). -/
def genericStepState (width : Nat → Option Nat) (src : List Nat) (output_offset i : Nat)
    (st : ScanState) : ScanState :=
  let byte := src.getD i 0
  if byte < 32 then
    let pos := i + output_offset
    if byte = 10 then { st with lines := st.lines ++ [pos + 1] }
    else if byte = 9 then
      { st with non_narrow_chars := st.non_narrow_chars ++ [NonNarrowChar.Tab pos] }
    else
      { st with non_narrow_chars := st.non_narrow_chars ++ [NonNarrowChar.ZeroWidth pos] }
  else if 127 ≤ byte then
    let c := (decodeUtf8 src i).1
    let char_len := (decodeUtf8 src i).2
    let pos := i + output_offset
    let st1 :=
      if 1 < char_len then
        { st with multi_byte_chars := st.multi_byte_chars ++ [⟨pos, char_len⟩] }
      else st
    let char_width := (width c).getD 0
    if char_width ≠ 1 then
      { st1 with non_narrow_chars := st1.non_narrow_chars ++ [NonNarrowChar.new pos char_width] }
    else st1
  else st

theorem genericStepLen_bounds (src : List Nat) (i : Nat) :
    1 ≤ genericStepLen src i ∧ genericStepLen src i ≤ 4 := by
  have := decodeUtf8_len_bounds src i
  simp only [genericStepLen]
  split_ifs <;> omega

/-- Unfolding the generic loop one iteration when the guard holds. -/
theorem generic_go_succ (width : Nat → Option Nat) (src : List Nat)
    (scan_len output_offset fuel i : Nat) (st : ScanState) (h : i < scan_len) :
    analyze_generic_go width src scan_len output_offset (fuel + 1) i st =
      analyze_generic_go width src scan_len output_offset fuel
        (i + genericStepLen src i) (genericStepState width src output_offset i st) := by
  simp only [analyze_generic_go, genericStepLen, genericStepState, h, if_true]
  by_cases h1 : src.getD i 0 < 32
  · simp only [h1, if_true]
  · simp only [h1, if_false]
    by_cases h4 : 127 ≤ src.getD i 0
    · simp only [h4, if_true]
    · simp only [h4, if_false]

/-- The generic loop exits as soon as the guard fails, for any fuel. -/
theorem generic_go_exit (width : Nat → Option Nat) (src : List Nat)
    (scan_len output_offset fuel i : Nat) (st : ScanState) (h : ¬ i < scan_len) :
    analyze_generic_go width src scan_len output_offset fuel i st = (st, i - scan_len) := by
  cases fuel <;> simp [analyze_generic_go, h]

/-- Fuel irrelevance: any fuel at least `scan_len - i` gives the same
result (each iteration advances `i` by at least one). -/
theorem generic_go_fuel (width : Nat → Option Nat) (src : List Nat)
    (scan_len output_offset : Nat) :
    ∀ f1 f2 i st, scan_len - i ≤ f1 → scan_len - i ≤ f2 →
      analyze_generic_go width src scan_len output_offset f1 i st =
        analyze_generic_go width src scan_len output_offset f2 i st := by
  intro f1
  induction f1 with
  | zero =>
    intro f2 i st h1 _
    have hi : ¬ i < scan_len := by omega
    rw [generic_go_exit _ _ _ _ _ _ _ hi, generic_go_exit _ _ _ _ _ _ _ hi]
  | succ f1 ih =>
    intro f2 i st h1 h2
    by_cases hi : i < scan_len
    · have hstep := genericStepLen_bounds src i
      cases f2 with
      | zero => omega
      | succ f2 =>
        rw [generic_go_succ _ _ _ _ _ _ _ hi, generic_go_succ _ _ _ _ _ _ _ hi]
        exact ih f2 (i + genericStepLen src i) _ (by omega) (by omega)
    · rw [generic_go_exit _ _ _ _ _ _ _ hi, generic_go_exit _ _ _ _ _ _ _ hi]

/-- Indexing into a dropped list. -/
theorem getD_drop (src : List Nat) (s i : Nat) :
    (src.drop s).getD i 0 = src.getD (s + i) 0 := by
  simp [List.getD_eq_getElem?_getD, List.getElem?_drop]

/-- Decoding in a dropped list. -/
theorem decodeUtf8_drop (src : List Nat) (s i : Nat) :
    decodeUtf8 (src.drop s) i = decodeUtf8 src (s + i) := by
  simp only [decodeUtf8, getD_drop]
  have e1 : s + (i + 1) = s + i + 1 := by omega
  have e2 : s + (i + 2) = s + i + 2 := by omega
  have e3 : s + (i + 3) = s + i + 3 := by omega
  rw [e1, e2, e3]

theorem genericStepLen_drop (src : List Nat) (s i : Nat) :
    genericStepLen (src.drop s) i = genericStepLen src (s + i) := by
  simp only [genericStepLen, getD_drop, decodeUtf8_drop]

theorem genericStepState_drop (width : Nat → Option Nat) (src : List Nat) (s i : Nat)
    (st : ScanState) :
    genericStepState width (src.drop s) s i st = genericStepState width src 0 (s + i) st := by
  simp only [genericStepState, getD_drop, decodeUtf8_drop]
  have e : i + s = s + i + 0 := by omega
  rw [e]

/-- Scanning a dropped suffix with output offset `s` is the same as
scanning the original list from index `s` with output offset 0 (the form
used by the SSE2 slow path and tail). -/
theorem generic_go_drop (width : Nat → Option Nat) (src : List Nat) (s L : Nat) :
    ∀ fuel i st,
      analyze_generic_go width (src.drop s) L s fuel i st =
        analyze_generic_go width src (s + L) 0 fuel (s + i) st := by
  intro fuel
  induction fuel with
  | zero =>
    intro i st
    simp only [analyze_generic_go]
    rw [Nat.add_sub_add_left]
  | succ fuel ih =>
    intro i st
    by_cases hi : i < L
    · rw [generic_go_succ _ _ _ _ _ _ _ hi,
        generic_go_succ _ _ _ _ _ _ _ (show s + i < s + L by omega)]
      rw [genericStepLen_drop, genericStepState_drop]
      rw [ih (i + genericStepLen src (s + i)) _]
      have e : s + (i + genericStepLen src (s + i)) = s + i + genericStepLen src (s + i) := by
        omega
      rw [e]
    · rw [generic_go_exit _ _ _ _ _ _ _ hi,
        generic_go_exit _ _ _ _ _ _ _ (show ¬ s + i < s + L by omega)]
      rw [Nat.add_sub_add_left]

/-- The loop overruns its scan bound by at most 3 bytes (the last character
begins before the bound and is at most 4 bytes long). -/
theorem generic_go_ov_le (width : Nat → Option Nat) (src : List Nat)
    (M output_offset : Nat) :
    ∀ fuel i st, i ≤ M →
      (analyze_generic_go width src M output_offset fuel i st).2 ≤ 3 := by
  intro fuel
  induction fuel with
  | zero =>
    intro i st h
    simp only [analyze_generic_go]
    omega
  | succ fuel ih =>
    intro i st h
    by_cases hi : i < M
    · have hstep := genericStepLen_bounds src i
      rw [generic_go_succ _ _ _ _ _ _ _ hi]
      by_cases hi' : i + genericStepLen src i ≤ M
      · exact ih _ _ hi'
      · rw [generic_go_exit _ _ _ _ _ _ _ (by omega)]
        simp only
        omega
    · rw [generic_go_exit _ _ _ _ _ _ _ hi]
      simp only
      omega

/-- Splitting a scan at an intermediate bound `M ≤ N`: run to `M` first,
then continue from where that run ended. -/
theorem generic_go_split (width : Nat → Option Nat) (src : List Nat) (M N : Nat)
    (hMN : M ≤ N) :
    ∀ fuel i st, N - i ≤ fuel →
      analyze_generic_go width src N 0 fuel i st =
        (fun r => analyze_generic_go width src N 0 fuel (M + r.2) r.1)
          (analyze_generic_go width src M 0 fuel i st) := by
  intro fuel
  induction fuel with
  | zero =>
    intro i st h
    have hi : ¬ i < N := by omega
    have hiM : ¬ i < M := by omega
    simp only [analyze_generic_go]
    have e : M + (i - M) = i := by omega
    rw [e]
  | succ fuel ih =>
    intro i st h
    by_cases hiM : i < M
    · have hiN : i < N := by omega
      have hstep := genericStepLen_bounds src i
      rw [generic_go_succ _ _ _ _ _ _ _ hiM, generic_go_succ _ _ _ _ _ _ _ hiN]
      rw [ih (i + genericStepLen src i) _ (by omega)]
      simp only
      exact generic_go_fuel _ _ _ _ _ _ _ _ (by omega) (by omega)
    · rw [generic_go_exit _ _ _ _ _ _ _ hiM]
      simp only
      have e : M + (i - M) = i := by omega
      rw [e]

/-! ## UTF-8 validity along the scan -/

/-- Decomposing a `drop` that yields a cons cell. -/
theorem drop_cons_elim (src : List Nat) (p b : Nat) (r : List Nat)
    (hd : src.drop p = b :: r) :
    b = src.getD p 0 ∧ r = src.drop (p + 1) ∧ p < src.length := by
  refine ⟨?_, ?_, ?_⟩
  · have h := getD_drop src p 0
    rw [hd] at h
    simpa using h
  · have h := List.tail_drop src p
    rw [hd] at h
    simpa using h
  · by_contra hlen
    rw [List.drop_eq_nil_of_le (by omega)] at hd
    exact List.noConfusion hd

/-- A `drop` at an in-range index is a cons of the indexed byte and the
next drop. -/
theorem drop_cons_getD (src : List Nat) (p : Nat) (hp : p < src.length) :
    src.drop p = src.getD p 0 :: src.drop (p + 1) := by
  cases hd : src.drop p with
  | nil =>
    have hlen := congrArg List.length hd
    simp [List.length_drop] at hlen
    omega
  | cons b r =>
    obtain ⟨hb, hr, _⟩ := drop_cons_elim src p b r hd
    rw [hb, hr]

/-- One-step unfolding of `validUtf8` on a cons cell (definitional). -/
theorem validUtf8_cons (b0 : Nat) (rest : List Nat) :
    validUtf8 (b0 :: rest) =
      (if b0 < 128 then validUtf8 rest
       else if b0 < 194 then false
       else if b0 < 224 then
         match rest with
         | b1 :: rest1 => contByte b1 && validUtf8 rest1
         | [] => false
       else if b0 < 240 then
         match rest with
         | b1 :: b2 :: rest2 =>
           contByte b1 && contByte b2 &&
           (decide (b0 ≠ 224) || decide (160 ≤ b1)) &&
           (decide (b0 ≠ 237) || decide (b1 < 160)) &&
           validUtf8 rest2
         | _ => false
       else if b0 < 245 then
         match rest with
         | b1 :: b2 :: b3 :: rest3 =>
           contByte b1 && contByte b2 && contByte b3 &&
           (decide (b0 ≠ 240) || decide (144 ≤ b1)) &&
           (decide (b0 ≠ 244) || decide (b1 < 144)) &&
           validUtf8 rest3
         | _ => false
       else false) := by
  cases rest with
  | nil => rfl
  | cons b1 r1 =>
    cases r1 with
    | nil => rfl
    | cons b2 r2 =>
      cases r2 with
      | nil => rfl
      | cons b3 r3 => rfl

/-- Scanning past an ASCII byte preserves validity of the remaining
suffix. -/
theorem valid_drop_ascii (src : List Nat) (p : Nat) (hp : p < src.length)
    (hb : src.getD p 0 < 128) (hv : validUtf8 (src.drop p) = true) :
    validUtf8 (src.drop (p + 1)) = true := by
  rw [drop_cons_getD src p hp] at hv
  rw [validUtf8_cons] at hv
  rw [if_pos hb] at hv
  exact hv

/-- Scanning past a multi-byte leading byte: the decoded character fits in
the source, its continuation bytes all have the high bit set, the suffix
after it is valid, and the decoded scalar value is at least 128. -/
theorem valid_drop_multi (src : List Nat) (p : Nat) (hp : p < src.length)
    (hb : 128 ≤ src.getD p 0) (hv : validUtf8 (src.drop p) = true) :
    p + (decodeUtf8 src p).2 ≤ src.length ∧
      validUtf8 (src.drop (p + (decodeUtf8 src p).2)) = true ∧
      (∀ j, p < j → j < p + (decodeUtf8 src p).2 → 128 ≤ src.getD j 0) ∧
      128 ≤ (decodeUtf8 src p).1 := by
  rw [drop_cons_getD src p hp] at hv
  rw [validUtf8_cons] at hv
  have h1 : ¬ (src.getD p 0 < 128) := by omega
  rw [if_neg h1] at hv
  by_cases h2 : src.getD p 0 < 194
  · rw [if_pos h2] at hv
    exact absurd hv (by simp)
  rw [if_neg h2] at hv
  by_cases h3 : src.getD p 0 < 224
  · -- two-byte character
    rw [if_pos h3] at hv
    cases hd1 : src.drop (p + 1) with
    | nil => rw [hd1] at hv; simp at hv
    | cons b1 r1 =>
      obtain ⟨hb1, hr1, hp1⟩ := drop_cons_elim src (p + 1) b1 r1 hd1
      rw [hd1] at hv
      simp only [contByte, Bool.and_eq_true, decide_eq_true_eq] at hv
      have hL : (decodeUtf8 src p).2 = 2 := by
        simp only [decodeUtf8]
        rw [if_neg h1, if_pos h3]
      have hc : (decodeUtf8 src p).1 = (src.getD p 0 % 32) * 64 + src.getD (p + 1) 0 % 64 := by
        simp only [decodeUtf8]
        rw [if_neg h1, if_pos h3]
      have hc1 := hv.1
      have hvr := hv.2
      rw [hr1] at hvr
      refine ⟨by omega, ?_, ?_, ?_⟩
      · rw [hL]; exact hvr
      · intro j hj1 hj2
        rw [hL] at hj2
        have hj : j = p + 1 := by omega
        subst hj
        omega
      · rw [hc]; omega
  rw [if_neg h3] at hv
  by_cases h4 : src.getD p 0 < 240
  · -- three-byte character
    rw [if_pos h4] at hv
    cases hd1 : src.drop (p + 1) with
    | nil => rw [hd1] at hv; simp at hv
    | cons b1 r1 =>
      obtain ⟨hb1, hr1, hp1⟩ := drop_cons_elim src (p + 1) b1 r1 hd1
      cases hd2 : r1 with
      | nil => rw [hd1, hd2] at hv; simp at hv
      | cons b2 r2 =>
        have hd2x : src.drop (p + 1 + 1) = b2 :: r2 := by rw [← hr1]; exact hd2
        obtain ⟨hb2, hr2, hp2⟩ := drop_cons_elim src (p + 1 + 1) b2 r2 hd2x
        rw [show p + 1 + 1 = p + 2 by omega] at hb2
        rw [hd1, hd2] at hv
        simp only [contByte, Bool.and_eq_true, Bool.or_eq_true, decide_eq_true_eq] at hv
        have hL : (decodeUtf8 src p).2 = 3 := by
          simp only [decodeUtf8]
          rw [if_neg h1, if_neg h3, if_pos h4]
        have hc : (decodeUtf8 src p).1 =
            (src.getD p 0 % 16) * 4096 + (src.getD (p + 1) 0 % 64) * 64 +
              src.getD (p + 2) 0 % 64 := by
          simp only [decodeUtf8]
          rw [if_neg h1, if_neg h3, if_pos h4]
        have hc1 := hv.1.1.1.1
        have hc2 := hv.1.1.1.2
        have hc224 := hv.1.1.2
        have hvr := hv.2
        rw [hr2] at hvr
        refine ⟨by omega, ?_, ?_, ?_⟩
        · rw [hL]; exact hvr
        · intro j hj1 hj2
          rw [hL] at hj2
          have hj : j = p + 1 ∨ j = p + 2 := by omega
          rcases hj with hj | hj <;> subst hj <;> omega
        · rw [hc]
          rcases hc224 with hne | hge <;> omega
  rw [if_neg h4] at hv
  by_cases h5 : src.getD p 0 < 245
  · -- four-byte character
    rw [if_pos h5] at hv
    cases hd1 : src.drop (p + 1) with
    | nil => rw [hd1] at hv; simp at hv
    | cons b1 r1 =>
      obtain ⟨hb1, hr1, hp1⟩ := drop_cons_elim src (p + 1) b1 r1 hd1
      cases hd2 : r1 with
      | nil => rw [hd1, hd2] at hv; simp at hv
      | cons b2 r2 =>
        have hd2x : src.drop (p + 1 + 1) = b2 :: r2 := by rw [← hr1]; exact hd2
        obtain ⟨hb2, hr2, hp2⟩ := drop_cons_elim src (p + 1 + 1) b2 r2 hd2x
        rw [show p + 1 + 1 = p + 2 by omega] at hb2
        cases hd3 : r2 with
        | nil => rw [hd1, hd2, hd3] at hv; simp at hv
        | cons b3 r3 =>
          have hd3x : src.drop (p + 1 + 1 + 1) = b3 :: r3 := by rw [← hr2]; exact hd3
          obtain ⟨hb3, hr3, hp3⟩ := drop_cons_elim src (p + 1 + 1 + 1) b3 r3 hd3x
          rw [show p + 1 + 1 + 1 = p + 3 by omega] at hb3
          rw [hd1, hd2, hd3] at hv
          simp only [contByte, Bool.and_eq_true, Bool.or_eq_true, decide_eq_true_eq] at hv
          have hL : (decodeUtf8 src p).2 = 4 := by
            simp only [decodeUtf8]
            rw [if_neg h1, if_neg h3, if_neg h4]
          have hc : (decodeUtf8 src p).1 =
              (src.getD p 0 % 8) * 262144 + (src.getD (p + 1) 0 % 64) * 4096 +
                (src.getD (p + 2) 0 % 64) * 64 + src.getD (p + 3) 0 % 64 := by
            simp only [decodeUtf8]
            rw [if_neg h1, if_neg h3, if_neg h4]
          have hc1 := hv.1.1.1.1.1
          have hc2 := hv.1.1.1.1.2
          have hc3 := hv.1.1.1.2
          have hc240 := hv.1.1.2
          have hvr := hv.2
          rw [hr3] at hvr
          refine ⟨by omega, ?_, ?_, ?_⟩
          · rw [hL]; exact hvr
          · intro j hj1 hj2
            rw [hL] at hj2
            have hj : j = p + 1 ∨ j = p + 2 ∨ j = p + 3 := by omega
            rcases hj with hj | hj | hj <;> subst hj <;> omega
          · rw [hc]
            rcases hc240 with hne | hge <;> omega
  · rw [if_neg h5] at hv
    exact absurd hv (by simp)

/-- Loop postcondition on valid UTF-8: the final position `N + overflow`
stays inside the source, begins a valid suffix (a character boundary), and
every overflow byte is a continuation byte (high bit set). -/
theorem generic_go_valid (width : Nat → Option Nat) (src : List Nat) (N : Nat)
    (hN : N ≤ src.length) :
    ∀ fuel i st, N - i ≤ fuel → i ≤ N → validUtf8 (src.drop i) = true →
      N + (analyze_generic_go width src N 0 fuel i st).2 ≤ src.length ∧
        validUtf8 (src.drop (N + (analyze_generic_go width src N 0 fuel i st).2)) = true ∧
        (∀ m, N ≤ m → m < N + (analyze_generic_go width src N 0 fuel i st).2 →
          128 ≤ src.getD m 0) := by
  intro fuel
  induction fuel with
  | zero =>
    intro i st hfuel hiN hvalid
    have hiN' : i = N := by omega
    subst hiN'
    simp only [analyze_generic_go, Nat.sub_self, Nat.add_zero]
    exact ⟨hN, hvalid, by omega⟩
  | succ fuel ih =>
    intro i st hfuel hiN hvalid
    by_cases hi : i < N
    · rw [generic_go_succ _ _ _ _ _ _ _ hi]
      by_cases hb : 128 ≤ src.getD i 0
      · have hmulti := valid_drop_multi src i (by omega) hb hvalid
        have hlen : genericStepLen src i = (decodeUtf8 src i).2 := by
          simp only [genericStepLen]
          rw [if_neg (by omega), if_pos (by omega)]
        by_cases hi' : i + genericStepLen src i ≤ N
        · exact ih _ _ (by have := genericStepLen_bounds src i; omega) hi'
            (by rw [hlen]; exact hmulti.2.1)
        · rw [generic_go_exit _ _ _ _ _ _ _ (by omega)]
          simp only
          have he : N + (i + genericStepLen src i - N) = i + genericStepLen src i := by omega
          rw [he, hlen]
          rw [hlen] at hi'
          refine ⟨hmulti.1, hmulti.2.1, ?_⟩
          intro m hm1 hm2
          exact hmulti.2.2.1 m (by omega) hm2
      · have hlen1 : genericStepLen src i = 1 := by
          simp only [genericStepLen]
          by_cases hb32 : src.getD i 0 < 32
          · rw [if_pos hb32]
          · rw [if_neg hb32]
            by_cases hb127 : 127 ≤ src.getD i 0
            · rw [if_pos hb127]
              simp only [decodeUtf8]
              rw [if_pos (by omega)]
            · rw [if_neg hb127]
        have hv' := valid_drop_ascii src i (by omega) (by omega) hvalid
        rw [hlen1]
        exact ih _ _ (by omega) (by omega) hv'
    · rw [generic_go_exit _ _ _ _ _ _ _ hi]
      have hieq : i = N := by omega
      subst hieq
      simp only [Nat.sub_self, Nat.add_zero]
      exact ⟨hN, hvalid, by omega⟩

/-- Running the generic loop over a region of printable-ASCII-or-newline
bytes appends exactly the newline positions plus one to the line table,
touches nothing else, and consumes no overflow. -/
theorem generic_go_ascii_run (width : Nat → Option Nat) (src : List Nat) (b : Nat) :
    ∀ fuel a st, a ≤ b → b - a ≤ fuel →
      (∀ m, a ≤ m → m < b → (32 ≤ src.getD m 0 ∧ src.getD m 0 ≤ 126) ∨ src.getD m 0 = 10) →
      analyze_generic_go width src b 0 fuel a st =
        ({ st with lines := st.lines ++
            (((List.range' a (b - a)).filter fun m => decide (src.getD m 0 = 10)).map
              fun m => m + 1) }, 0) := by
  intro fuel
  induction fuel with
  | zero =>
    intro a st hab hfuel _
    have ha : a = b := by omega
    subst ha
    rw [generic_go_exit _ _ _ _ _ _ _ (by omega)]
    simp
  | succ fuel ih =>
    intro a st hab hfuel hbytes
    by_cases hi : a < b
    · rw [generic_go_succ _ _ _ _ _ _ _ hi]
      have hbyte := hbytes a (Nat.le_refl a) hi
      have hrange : b - a = (b - (a + 1)) + 1 := by omega
      rw [hrange, List.range'_succ]
      by_cases h10 : src.getD a 0 = 10
      · have hlen : genericStepLen src a = 1 := by
          simp only [genericStepLen]
          rw [if_pos (by omega)]
        have hstate : genericStepState width src 0 a st =
            { st with lines := st.lines ++ [a + 1] } := by
          simp only [genericStepState]
          rw [if_pos (by omega), if_pos h10]
        rw [hlen, hstate, ih (a + 1) _ (by omega) (by omega)
          (fun m hm1 hm2 => hbytes m (by omega) hm2)]
        simp only [List.filter_cons, h10, decide_True, if_true, List.map_cons]
        simp
      · have hmid : 32 ≤ src.getD a 0 ∧ src.getD a 0 ≤ 126 := by
          rcases hbyte with hmid | h
          · exact hmid
          · exact absurd h h10
        have hlen : genericStepLen src a = 1 := by
          simp only [genericStepLen]
          rw [if_neg (by omega), if_neg (by omega)]
        have hstate : genericStepState width src 0 a st = st := by
          simp only [genericStepState]
          rw [if_neg (by omega), if_neg (by omega)]
        rw [hlen, hstate, ih (a + 1) _ (by omega) (by omega)
          (fun m hm1 hm2 => hbytes m (by omega) hm2)]
        simp only [List.filter_cons, h10, decide_False, if_false]
        simp [h10]
    · have ha : a = b := by omega
      subst ha
      rw [generic_go_exit _ _ _ _ _ _ _ (by omega)]
      simp

/-! ## Bitmask reasoning for the SSE2 fast path -/

/-- Bit `i` of a movemask is lane `i` of the comparison vector. -/
theorem movemask_testBit : ∀ (bs : List Bool) (i : Nat),
    (movemask bs).testBit i = bs.getD i false := by
  intro bs
  induction bs with
  | nil => intro i; simp [movemask, Nat.zero_testBit]
  | cons b rest ih =>
    intro i
    cases i with
    | zero =>
      simp only [movemask, Nat.testBit_zero, List.getD_cons_zero]
      cases b <;> simp [Nat.add_mul_mod_self_left]
    | succ i =>
      simp only [movemask, Nat.testBit_add_one, List.getD_cons_succ]
      have hdiv : ((if b then 1 else 0) + 2 * movemask rest) / 2 = movemask rest := by
        cases b <;> simp <;> omega
      rw [hdiv, ih]

theorem movemask_lt : ∀ bs : List Bool, movemask bs < 2 ^ bs.length := by
  intro bs
  induction bs with
  | nil => simp [movemask]
  | cons b rest ih =>
    have hb : (if b then 1 else 0) ≤ 1 := by cases b <;> simp
    simp only [movemask, List.length_cons, pow_succ]
    omega

/-- Bits of the constant mask `0xFFFF0000`. -/
theorem testBit_const_hi (j : Nat) :
    (4294901760 : Nat).testBit j = (decide (16 ≤ j) && decide (j < 32)) := by
  by_cases h : j < 32
  · interval_cases j <;> decide
  · have h32 : (4294901760 : Nat) < 2 ^ 32 := by norm_num
    have hle : (2 : Nat) ^ 32 ≤ 2 ^ j := Nat.pow_le_pow_right (by norm_num) (by omega)
    have hlt : (4294901760 : Nat) < 2 ^ j := by omega
    rw [Nat.testBit_lt_two_pow hlt]
    have : ¬ (j < 32) := h
    simp [this]

/-- Bits of the constant mask `!1 = 0xFFFFFFFE`. -/
theorem testBit_const_not1 (j : Nat) :
    (4294967294 : Nat).testBit j = (decide (1 ≤ j) && decide (j < 32)) := by
  by_cases h : j < 32
  · interval_cases j <;> decide
  · have h32 : (4294967294 : Nat) < 2 ^ 32 := by norm_num
    have hle : (2 : Nat) ^ 32 ≤ 2 ^ j := Nat.pow_le_pow_right (by norm_num) (by omega)
    have hlt : (4294967294 : Nat) < 2 ^ j := by omega
    rw [Nat.testBit_lt_two_pow hlt]
    have : ¬ (j < 32) := h
    simp [this]

/-- `find?` over a contiguous range returns the first satisfying index. -/
theorem find?_range'_eq_some (p : Nat → Bool) :
    ∀ (n s l : Nat), s ≤ l → l < s + n → p l = true →
      (∀ j, s ≤ j → j < l → p j = false) →
      (List.range' s n).find? p = some l := by
  intro n
  induction n with
  | zero => intro s l h1 h2 _ _; omega
  | succ n ih =>
    intro s l h1 h2 hp hlow
    rw [List.range'_succ]
    by_cases hsl : s = l
    · subst hsl
      simp [List.find?_cons, hp]
    · have hps : p s = false := hlow s (Nat.le_refl s) (by omega)
      simp only [List.find?_cons, hps]
      exact ih (s + 1) l (by omega) (by omega) hp fun j hj1 hj2 => hlow j (by omega) hj2

/-- `ctz32` returns the least set bit. -/
theorem ctz32_eq_of (m l : Nat) (hl : l < 32) (hp : m.testBit l = true)
    (hlow : ∀ j, j < l → m.testBit j = false) : ctz32 m = l := by
  unfold ctz32
  rw [List.range_eq_range',
    find?_range'_eq_some _ 32 0 l (by omega) (by omega) hp
      (fun j _ hj2 => hlow j hj2)]
  rfl

/-- Bits of the clearing mask `(!1) << l` in `u32`. -/
theorem testBit_clear_mask (l j : Nat) (hl : l < 16) :
    ((4294967294 <<< l) % 4294967296).testBit j =
      (decide (l < j) && decide (j < 32)) := by
  rw [show (4294967296 : Nat) = 2 ^ 32 by norm_num, Nat.testBit_mod_two_pow,
    Nat.testBit_shiftLeft, testBit_const_not1]
  by_cases h32 : j < 32
  · by_cases hjl : l < j
    · simp [h32, hjl, show j ≥ l by omega, show 1 ≤ j - l by omega, show j - l < 32 by omega]
    · by_cases hjeq : j = l
      · subst hjeq
        simp [h32, hjl]
      · simp [h32, hjl, show ¬ j ≥ l by omega]
  · simp [h32]

/-- The filter of set bits loses exactly its least element when the bits up
to and including it are cleared. -/
theorem filter_testBit_step (m m' l : Nat) (hl : l < 16)
    (hml : m.testBit l = true)
    (hlow : ∀ j, j < l → m.testBit j = false)
    (hm' : ∀ j, j < 16 → m'.testBit j = (m.testBit j && decide (l < j))) :
    (List.range 16).filter (fun i => m.testBit i) =
      l :: (List.range 16).filter (fun i => m'.testBit i) := by
  have hsplit : List.range' 0 l ++ List.range' l (16 - l) = List.range' 0 16 := by
    have h := List.range'_append 0 l (16 - l) 1
    simp only [Nat.one_mul, Nat.zero_add] at h
    rw [show 16 - l + l = 16 by omega] at h
    exact h
  have e16 : (16 : Nat) - l = (15 - l) + 1 := by omega
  have hlowm : (List.range' 0 l).filter (fun i => m.testBit i) = [] := by
    rw [List.filter_eq_nil_iff]
    intro j hj
    have := List.mem_range'_1.mp hj
    simp [hlow j (by omega)]
  have hlowm' : (List.range' 0 l).filter (fun i => m'.testBit i) = [] := by
    rw [List.filter_eq_nil_iff]
    intro j hj
    have hjl := List.mem_range'_1.mp hj
    have : m'.testBit j = false := by
      rw [hm' j (by omega), hlow j (by omega)]
      simp
    simp [this]
  have htail : (List.range' (l + 1) (15 - l)).filter (fun i => m.testBit i) =
      (List.range' (l + 1) (15 - l)).filter (fun i => m'.testBit i) := by
    apply (List.filter_congr ?_).symm
    intro j hj
    have hjb := List.mem_range'_1.mp hj
    rw [hm' j (by omega)]
    simp [show l < j by omega]
  have hm'l : m'.testBit l = false := by
    rw [hm' l hl]
    simp
  rw [List.range_eq_range', ← hsplit, List.filter_append, List.filter_append,
    hlowm, hlowm', e16, List.range'_succ, List.filter_cons, List.filter_cons,
    hml, hm'l, htail]
  simp

/-- Correctness of the SSE2 newline-mask extraction loop: starting from
`0xFFFF0000 | m` it appends exactly the set-bit indices of `m` (ascending,
offset by `output_offset`). -/
theorem sse2_newlines_go_spec :
    ∀ (fuel c m off : Nat) (acc : List Nat), c ≤ 16 → 16 - c < fuel → m < 65536 →
      (∀ j, j < c → m.testBit j = false) →
      sse2_newlines_go off fuel (4294901760 ||| m) acc =
        acc ++ ((List.range 16).filter (fun i => m.testBit i)).map (fun i => i + off) := by
  intro fuel
  induction fuel with
  | zero => intro c m off acc h1 h2 _ _; omega
  | succ fuel ih =>
    intro c m off acc hc hfuel hm hlow
    by_cases hm0 : m = 0
    · subst hm0
      have hctz : ctz32 (4294901760 ||| 0) = 16 := by
        apply ctz32_eq_of _ _ (by omega)
        · simp [Nat.testBit_or, testBit_const_hi, Nat.zero_testBit]
        · intro j hj
          simp [Nat.testBit_or, testBit_const_hi, Nat.zero_testBit]
          omega
      simp only [sse2_newlines_go, hctz]
      rw [if_pos (by omega)]
      have hnil : (List.range 16).filter (fun i => Nat.testBit 0 i) = [] := by
        simp [Nat.zero_testBit]
      rw [hnil]
      simp
    · have hex : ∃ i, m.testBit i = true := Nat.ne_zero_implies_bit_true hm0
      have hl : m.testBit (Nat.find hex) = true := Nat.find_spec hex
      set l := Nat.find hex with hldef
      have hlow' : ∀ j, j < l → m.testBit j = false := by
        intro j hj
        have := Nat.find_min hex hj
        simpa using this
      have hl16 : l < 16 := by
        by_contra hge
        have hlt : m < 2 ^ l := by
          have : (2 : Nat) ^ 16 ≤ 2 ^ l := Nat.pow_le_pow_right (by norm_num) (by omega)
          omega
        rw [Nat.testBit_lt_two_pow hlt] at hl
        exact Bool.noConfusion hl
      have hcl : c ≤ l := by
        by_contra h
        have := hlow l (by omega)
        rw [this] at hl
        exact Bool.noConfusion hl
      have hctz : ctz32 (4294901760 ||| m) = l := by
        apply ctz32_eq_of _ _ (by omega)
        · simp [Nat.testBit_or, hl]
        · intro j hj
          have h16 : ¬ (16 ≤ j) := by omega
          simp [Nat.testBit_or, testBit_const_hi, hlow' j hj, h16]
      have hmb : ∀ j, ((4294967294 <<< l) % 4294967296).testBit j =
          (decide (l < j) && decide (j < 32)) := fun j => testBit_clear_mask l j hl16
      have hm'bit : ∀ j, (m &&& ((4294967294 <<< l) % 4294967296)).testBit j =
          (m.testBit j && (decide (l < j) && decide (j < 32))) := by
        intro j
        rw [Nat.testBit_and, hmb]
      have hmaskeq : (4294901760 ||| m) &&& ((4294967294 <<< l) % 4294967296) =
          4294901760 ||| (m &&& ((4294967294 <<< l) % 4294967296)) := by
        apply Nat.eq_of_testBit_eq
        intro j
        rw [Nat.testBit_and, Nat.testBit_or, Nat.testBit_or, hm'bit, hmb, testBit_const_hi]
        have hAC : decide (16 ≤ j) = true → decide (l < j) = true := by
          intro hA
          simp at hA ⊢
          omega
        cases hA : decide (16 ≤ j) <;> cases hB : decide (j < 32) <;>
          cases hC : decide (l < j) <;> cases hmj : m.testBit j <;> simp_all
      have hm'lt : m &&& ((4294967294 <<< l) % 4294967296) < 65536 := by
        have : ∀ i, i ≥ 16 → (m &&& ((4294967294 <<< l) % 4294967296)).testBit i = false := by
          intro i hi
          rw [hm'bit]
          have hmi : m.testBit i = false := by
            apply Nat.testBit_lt_two_pow
            have : (2 : Nat) ^ 16 ≤ 2 ^ i := Nat.pow_le_pow_right (by norm_num) (by omega)
            omega
          simp [hmi]
        exact Nat.lt_pow_two_of_testBit _ this
      have hm'low : ∀ j, j < l + 1 → (m &&& ((4294967294 <<< l) % 4294967296)).testBit j =
          false := by
        intro j hj
        rw [hm'bit]
        simp [show ¬ l < j by omega]
      have hfilter := filter_testBit_step m (m &&& ((4294967294 <<< l) % 4294967296)) l hl16
        hl hlow' (fun j hj => by rw [hm'bit]; simp [show j < 32 by omega])
      simp only [sse2_newlines_go, hctz]
      rw [if_neg (by omega), hmaskeq,
        ih (l + 1) _ off _ (by omega) (by omega) hm'lt hm'low, hfilter]
      simp

/-! ## Assembling the SSE2 fast path against the generic scan -/

/-- The canonical full scan of `src` starting at byte `p` (with exactly
sufficient fuel). -/
def scanFrom (width : Nat → Option Nat) (src : List Nat) (p : Nat) (st : ScanState) :
    ScanState :=
  (analyze_generic_go width src src.length 0 (src.length - p) p st).1

/-- Signed-byte comparison against 0: true exactly on high-bit bytes. -/
theorem asI8_neg_iff (b : Nat) (hb : b < 256) : asI8 b < 0 ↔ 128 ≤ b := by
  unfold asI8
  by_cases h : b < 128 <;> simp [h] <;> omega

/-- Signed-byte comparison against 32. -/
theorem asI8_lt32_iff (b : Nat) (hb : b < 256) : asI8 b < 32 ↔ (b < 32 ∨ 128 ≤ b) := by
  unfold asI8
  by_cases h : b < 128 <;> simp [h] <;> omega

/-- Every byte of a valid UTF-8 string is below 245 (leading bytes are
`< 0xF5`, continuations `< 0xC0`, ASCII `< 0x80`). -/
theorem validUtf8_bytes_lt :
    ∀ (n : Nat) (src : List Nat), src.length ≤ n → validUtf8 src = true →
      ∀ b ∈ src, b < 245 := by
  intro n
  induction n with
  | zero =>
    intro src hlen _ b hb
    have hnil : src = [] := List.eq_nil_of_length_eq_zero (by omega)
    subst hnil
    simp at hb
  | succ n ih =>
    intro src hlen hv b hb
    cases src with
    | nil => simp at hb
    | cons b0 rest =>
      rw [validUtf8_cons] at hv
      simp only [List.length_cons] at hlen
      by_cases h1 : b0 < 128
      · rw [if_pos h1] at hv
        rcases List.mem_cons.mp hb with rfl | hb
        · omega
        · exact ih rest (by omega) hv b hb
      rw [if_neg h1] at hv
      by_cases h2 : b0 < 194
      · rw [if_pos h2] at hv
        exact absurd hv (by simp)
      rw [if_neg h2] at hv
      by_cases h3 : b0 < 224
      · rw [if_pos h3] at hv
        cases rest with
        | nil => simp at hv
        | cons b1 r1 =>
          simp only [contByte, Bool.and_eq_true, decide_eq_true_eq] at hv
          rcases List.mem_cons.mp hb with rfl | hb
          · omega
          rcases List.mem_cons.mp hb with rfl | hb
          · omega
          · exact ih r1 (by simp at hlen; omega) hv.2 b hb
      rw [if_neg h3] at hv
      by_cases h4 : b0 < 240
      · rw [if_pos h4] at hv
        cases rest with
        | nil => simp at hv
        | cons b1 r1 =>
          cases r1 with
          | nil => simp at hv
          | cons b2 r2 =>
            simp only [contByte, Bool.and_eq_true, Bool.or_eq_true,
              decide_eq_true_eq] at hv
            rcases List.mem_cons.mp hb with rfl | hb
            · omega
            rcases List.mem_cons.mp hb with rfl | hb
            · have := hv.1.1.1.1
              omega
            rcases List.mem_cons.mp hb with rfl | hb
            · have := hv.1.1.1.2
              omega
            · exact ih r2 (by simp at hlen; omega) hv.2 b hb
      rw [if_neg h4] at hv
      by_cases h5 : b0 < 245
      · rw [if_pos h5] at hv
        cases rest with
        | nil => simp at hv
        | cons b1 r1 =>
          cases r1 with
          | nil => simp at hv
          | cons b2 r2 =>
            cases r2 with
            | nil => simp at hv
            | cons b3 r3 =>
              simp only [contByte, Bool.and_eq_true, Bool.or_eq_true,
                decide_eq_true_eq] at hv
              rcases List.mem_cons.mp hb with rfl | hb
              · omega
              rcases List.mem_cons.mp hb with rfl | hb
              · have := hv.1.1.1.1.1
                omega
              rcases List.mem_cons.mp hb with rfl | hb
              · have := hv.1.1.1.1.2
                omega
              rcases List.mem_cons.mp hb with rfl | hb
              · have := hv.1.1.1.2
                omega
              · exact ih r3 (by simp at hlen; omega) hv.2 b hb
      · rw [if_neg h5] at hv
        exact absurd hv (by simp)

/-- Pointwise byte bound from validity. -/
theorem valid_bytes_lt (src : List Nat) (hv : validUtf8 src = true) (m : Nat) :
    src.getD m 0 < 245 := by
  by_cases hm : m < src.length
  · have hmem : src.getD m 0 ∈ src := by
      rw [List.getD_eq_getElem src 0 hm]
      exact List.getElem_mem hm
    exact validUtf8_bytes_lt src.length src (Nat.le_refl _) hv _ hmem
  · rw [List.getD_eq_default src 0 (by omega)]
    omega

/-- Validity advances across a region of ASCII bytes. -/
theorem valid_ascii_range (src : List Nat) :
    ∀ (n a : Nat), a + n ≤ src.length →
      (∀ m, a ≤ m → m < a + n → src.getD m 0 < 128) →
      validUtf8 (src.drop a) = true → validUtf8 (src.drop (a + n)) = true := by
  intro n
  induction n with
  | zero => intro a _ _ hv; exact hv
  | succ n ih =>
    intro a hlen hbytes hv
    have h1 : validUtf8 (src.drop (a + 1)) = true :=
      valid_drop_ascii src a (by omega) (hbytes a (by omega) (by omega)) hv
    have h2 := ih (a + 1) (by omega) (fun m hm1 hm2 => hbytes m (by omega) (by omega)) h1
    rw [show a + (n + 1) = a + 1 + n by omega]
    exact h2

/-- Reading inside the 16-byte chunk. -/
theorem getD_chunk (src : List Nat) (p j : Nat) (hj : j < 16) :
    ((src.drop p).take 16).getD j 0 = src.getD (p + j) 0 := by
  rw [List.getD_eq_getElem?_getD, List.getD_eq_getElem?_getD,
    List.getElem?_take_of_lt hj, List.getElem?_drop]

/-- `getD` through `map` at an in-range index. -/
theorem getD_map_bool (f : Nat → Bool) (l : List Nat) (j : Nat) (hj : j < l.length) :
    (l.map f).getD j false = f (l.getD j 0) := by
  have h1 : l[j]? = some l[j] := List.getElem?_eq_getElem hj
  rw [List.getD_eq_getElem?_getD, List.getElem?_map, h1, List.getD_eq_getElem?_getD, h1]
  rfl

/-- A lane predicate read off a chunk movemask bit. -/
theorem chunk_mask_bit (src : List Nat) (p j : Nat) (hj : j < 16)
    (hp : p + 16 ≤ src.length) (pred : Nat → Bool) :
    (movemask (((src.drop p).take 16).map pred)).testBit j = pred (src.getD (p + j) 0) := by
  have hlen : ((src.drop p).take 16).length = 16 := by
    rw [List.length_take, List.length_drop]
    omega
  rw [movemask_testBit, getD_map_bool pred _ j (by omega), getD_chunk src p j hj]

/-- Scanning across a printable-ASCII/newline chunk advances the full scan
by 16 bytes, appending the newline positions plus one. -/
theorem scanFrom_ascii_chunk (width : Nat → Option Nat) (src : List Nat) (p : Nat)
    (hp16 : p + 16 ≤ src.length)
    (hbytes : ∀ j, j < 16 →
      (32 ≤ src.getD (p + j) 0 ∧ src.getD (p + j) 0 ≤ 126) ∨ src.getD (p + j) 0 = 10)
    (st : ScanState) :
    scanFrom width src p st =
      scanFrom width src (p + 16)
        { st with lines := st.lines ++
            (((List.range' p 16).filter fun m => decide (src.getD m 0 = 10)).map
              fun m => m + 1) } := by
  unfold scanFrom
  rw [generic_go_split width src (p + 16) src.length (by omega)
    (src.length - p) p st (by omega)]
  have hrun := generic_go_ascii_run width src (p + 16) (src.length - p) p st (by omega)
    (by omega)
    (fun m hm1 hm2 => by
      have hj : m - p < 16 := by omega
      have hb := hbytes (m - p) hj
      rw [show p + (m - p) = m by omega] at hb
      exact hb)
  rw [hrun]
  simp only
  rw [show p + 16 - p = 16 by omega, Nat.add_zero]
  exact congrArg Prod.fst
    (generic_go_fuel width src src.length 0 (src.length - p) (src.length - (p + 16)) _ _
      (by omega) (by omega))

/-- The batch-extracted newline list of the fast path equals the newline
list recorded by the generic scan of the same chunk. -/
theorem newline_mask_list (src : List Nat) (p : Nat) (hp16 : p + 16 ≤ src.length) :
    ((List.range 16).filter fun i =>
        (movemask (((src.drop p).take 16).map fun b => decide (b = 10))).testBit i).map
      (fun i => i + (p + 1)) =
      ((List.range' p 16).filter fun m => decide (src.getD m 0 = 10)).map
        fun m => m + 1 := by
  have hbit : ∀ i ∈ List.range 16,
      ((movemask (((src.drop p).take 16).map fun b => decide (b = 10))).testBit i) =
        decide (src.getD (p + i) 0 = 10) := fun i hi =>
    chunk_mask_bit src p i (List.mem_range.mp hi) hp16 _
  rw [List.filter_congr hbit, List.range'_eq_map_range, List.filter_map, List.map_map]
  apply List.map_congr_left
  intro a _
  simp only [Function.comp]
  omega

/-- Main induction for the SSE2 chunk loop: the state it produces, resumed
at `chunk_count * 16 + intra_final`, agrees with the full generic scan
resumed at the current position; the final resume point is a valid
character boundary inside the source. -/
theorem sse2_go_spec (width : Nat → Option Nat) (src : List Nat)
    (hv : validUtf8 src = true) :
    ∀ (fuel chunk_index intra : Nat) (st : ScanState),
      fuel + chunk_index = src.length / 16 →
      chunk_index * 16 + intra ≤ src.length →
      intra ≤ 3 →
      validUtf8 (src.drop (chunk_index * 16 + intra)) = true →
      (∀ j, j < intra → 128 ≤ src.getD (chunk_index * 16 + j) 0) →
      scanFrom width src (chunk_index * 16 + intra) st =
          scanFrom width src
            ((src.length / 16) * 16 + (sse2_go width src fuel chunk_index intra st).2)
            (sse2_go width src fuel chunk_index intra st).1 ∧
        (src.length / 16) * 16 + (sse2_go width src fuel chunk_index intra st).2 ≤
          src.length ∧
        validUtf8 (src.drop
          ((src.length / 16) * 16 + (sse2_go width src fuel chunk_index intra st).2)) =
          true := by
  intro fuel
  induction fuel with
  | zero =>
    intro chunk_index intra st hfuel hlen hintra hvalid hcont
    have hcc : chunk_index = src.length / 16 := by omega
    subst hcc
    simp only [sse2_go]
    exact ⟨trivial, hlen, hvalid⟩
  | succ fuel ih =>
    intro chunk_index intra st hfuel hlen hintra hvalid hcont
    have hci : chunk_index < src.length / 16 := by omega
    have hM : (chunk_index + 1) * 16 ≤ src.length := by
      have h1 : chunk_index + 1 ≤ src.length / 16 := by omega
      have h2 : (chunk_index + 1) * 16 ≤ (src.length / 16) * 16 :=
        Nat.mul_le_mul_right 16 h1
      have h3 := Nat.div_mul_le_self src.length 16
      omega
    simp only [sse2_go]
    split_ifs with hA hB
    · -- pure printable ASCII chunk: skip
      have hBytes : ∀ j, j < 16 → src.getD (chunk_index * 16 + j) 0 < 128 := by
        intro j hj
        have hbit := (chunk_mask_bit src (chunk_index * 16) j hj (by omega)
          (fun b => decide (asI8 b < 0))).symm
        rw [hA.1, Nat.zero_testBit] at hbit
        simp only [decide_eq_false_iff_not] at hbit
        have hb245 := valid_bytes_lt src hv (chunk_index * 16 + j)
        have hiff := asI8_neg_iff (src.getD (chunk_index * 16 + j) 0) (by omega)
        omega
      have hintra0 : intra = 0 := by
        by_contra h
        have h0 := hcont 0 (by omega)
        have h1 := hBytes 0 (by omega)
        omega
      subst hintra0
      have hMid : ∀ j, j < 16 →
          32 ≤ src.getD (chunk_index * 16 + j) 0 ∧
            src.getD (chunk_index * 16 + j) 0 ≤ 126 := by
        intro j hj
        have hbitc := congrArg (fun m => Nat.testBit m j) hA.2
        simp only [Nat.testBit_or, Nat.zero_testBit, Bool.or_eq_false_iff] at hbitc
        have hb1 := (chunk_mask_bit src (chunk_index * 16) j hj (by omega)
          (fun b => decide (asI8 b < 32))).symm
        have hb2 := (chunk_mask_bit src (chunk_index * 16) j hj (by omega)
          (fun b => decide (b = 127))).symm
        rw [hbitc.1] at hb1
        rw [hbitc.2] at hb2
        simp only [decide_eq_false_iff_not] at hb1 hb2
        have hb245 := valid_bytes_lt src hv (chunk_index * 16 + j)
        have hiff := asI8_lt32_iff (src.getD (chunk_index * 16 + j) 0) (by omega)
        have h32 : ¬ (src.getD (chunk_index * 16 + j) 0 < 32 ∨
            128 ≤ src.getD (chunk_index * 16 + j) 0) := fun hor => hb1 (hiff.mpr hor)
        omega
      have hchunk := scanFrom_ascii_chunk width src (chunk_index * 16) (by omega)
        (fun j hj => Or.inl (hMid j hj)) st
      have hnilf : ((List.range' (chunk_index * 16) 16).filter
          fun m => decide (src.getD m 0 = 10)) = [] := by
        rw [List.filter_eq_nil_iff]
        intro a ha
        have hab := List.mem_range'_1.mp ha
        have := hMid (a - chunk_index * 16) (by omega)
        rw [show chunk_index * 16 + (a - chunk_index * 16) = a by omega] at this
        simp only [decide_eq_true_eq]
        omega
      rw [hnilf] at hchunk
      simp only [List.map_nil, List.append_nil] at hchunk
      have hvalid' : validUtf8 (src.drop ((chunk_index + 1) * 16 + 0)) = true := by
        have := valid_ascii_range src 16 (chunk_index * 16) (by omega)
          (fun m hm1 hm2 => by
            have := hBytes (m - chunk_index * 16) (by omega)
            rw [show chunk_index * 16 + (m - chunk_index * 16) = m by omega] at this
            exact this)
          (by rw [show chunk_index * 16 = chunk_index * 16 + 0 by omega]; exact hvalid)
        rw [show (chunk_index + 1) * 16 + 0 = chunk_index * 16 + 16 by ring]
        exact this
      have hrec := ih (chunk_index + 1) 0 st (by omega) (by omega) (by omega) hvalid'
        (by omega)
      refine ⟨?_, hrec.2.1, hrec.2.2⟩
      rw [Nat.add_zero] at hchunk hrec ⊢
      rw [hchunk, show chunk_index * 16 + 16 = (chunk_index + 1) * 16 by ring]
      exact hrec.1
    · -- all control characters are newlines: batch-record them
      have hBytes : ∀ j, j < 16 → src.getD (chunk_index * 16 + j) 0 < 128 := by
        intro j hj
        have hbit := (chunk_mask_bit src (chunk_index * 16) j hj (by omega)
          (fun b => decide (asI8 b < 0))).symm
        rw [hB.1, Nat.zero_testBit] at hbit
        simp only [decide_eq_false_iff_not] at hbit
        have hb245 := valid_bytes_lt src hv (chunk_index * 16 + j)
        have hiff := asI8_neg_iff (src.getD (chunk_index * 16 + j) 0) (by omega)
        omega
      have hintra0 : intra = 0 := by
        by_contra h
        have h0 := hcont 0 (by omega)
        have h1 := hBytes 0 (by omega)
        omega
      subst hintra0
      have hMid : ∀ j, j < 16 →
          (32 ≤ src.getD (chunk_index * 16 + j) 0 ∧
            src.getD (chunk_index * 16 + j) 0 ≤ 126) ∨
            src.getD (chunk_index * 16 + j) 0 = 10 := by
        intro j hj
        have hbitc := congrArg (fun m => Nat.testBit m j) hB.2
        simp only [Nat.testBit_or] at hbitc
        have hb1 := chunk_mask_bit src (chunk_index * 16) j hj (by omega)
          (fun b => decide (asI8 b < 32))
        have hb2 := chunk_mask_bit src (chunk_index * 16) j hj (by omega)
          (fun b => decide (b = 127))
        have hb3 := chunk_mask_bit src (chunk_index * 16) j hj (by omega)
          (fun b => decide (b = 10))
        rw [hb1, hb2, hb3] at hbitc
        have hb245 := valid_bytes_lt src hv (chunk_index * 16 + j)
        have hiff := asI8_lt32_iff (src.getD (chunk_index * 16 + j) 0) (by omega)
        by_cases h10 : src.getD (chunk_index * 16 + j) 0 = 10
        · exact Or.inr h10
        · left
          simp only [h10, decide_False] at hbitc
          rw [Bool.or_eq_false_iff] at hbitc
          simp only [decide_eq_false_iff_not] at hbitc
          have h32 : ¬ (src.getD (chunk_index * 16 + j) 0 < 32 ∨
              128 ≤ src.getD (chunk_index * 16 + j) 0) := fun hor => hbitc.1 (hiff.mpr hor)
          omega
      have hchunk := scanFrom_ascii_chunk width src (chunk_index * 16) (by omega) hMid st
      have hnl := sse2_newlines_go_spec 17 0
        (movemask (((src.drop (chunk_index * 16)).take 16).map fun b => decide (b = 10)))
        (chunk_index * 16 + 1) st.lines (by omega) (by omega)
        (by
          have h := movemask_lt (((src.drop (chunk_index * 16)).take 16).map
            fun b => decide (b = 10))
          rw [List.length_map] at h
          have hlen16 : ((src.drop (chunk_index * 16)).take 16).length = 16 := by
            rw [List.length_take, List.length_drop]
            omega
          rw [hlen16] at h
          omega)
        (by omega)
      have hlists := newline_mask_list src (chunk_index * 16) (by omega)
      have hvalid' : validUtf8 (src.drop ((chunk_index + 1) * 16 + 0)) = true := by
        have := valid_ascii_range src 16 (chunk_index * 16) (by omega)
          (fun m hm1 hm2 => by
            have := hBytes (m - chunk_index * 16) (by omega)
            rw [show chunk_index * 16 + (m - chunk_index * 16) = m by omega] at this
            exact this)
          (by rw [show chunk_index * 16 = chunk_index * 16 + 0 by omega]; exact hvalid)
        rw [show (chunk_index + 1) * 16 + 0 = chunk_index * 16 + 16 by ring]
        exact this
      have hrec := ih (chunk_index + 1) 0 { st with lines := sse2_newlines_go (chunk_index * 16 + 1) 17 (4294901760 ||| movemask (((src.drop (chunk_index * 16)).take 16).map fun b => decide (b = 10))) st.lines } (by omega) (by omega) (by omega) hvalid' (by omega)
      refine ⟨?_, hrec.2.1, hrec.2.2⟩
      rw [Nat.add_zero] at hchunk hrec ⊢
      rw [hchunk, show chunk_index * 16 + 16 = (chunk_index + 1) * 16 by ring]
      rw [hnl, hlists] at hrec
      rw [hnl, hlists]
      exact hrec.1
    · -- slow path: generic decoding of this chunk
      have hdrop := generic_go_drop width src (chunk_index * 16 + intra) (16 - intra)
        (16 - intra) 0 st
      have hpM : chunk_index * 16 + intra + (16 - intra) = (chunk_index + 1) * 16 := by
        have : (chunk_index + 1) * 16 = chunk_index * 16 + 16 := by ring
        omega
      rw [hpM, Nat.add_zero] at hdrop
      have hr : analyze_source_file_generic width (src.drop (chunk_index * 16 + intra))
          (16 - intra) (chunk_index * 16 + intra) st =
          analyze_generic_go width src ((chunk_index + 1) * 16) 0
            (src.length - (chunk_index * 16 + intra)) (chunk_index * 16 + intra) st := by
        unfold analyze_source_file_generic
        rw [hdrop]
        exact generic_go_fuel width src ((chunk_index + 1) * 16) 0 _ _ _ _
          (by omega) (by omega)
      have hvalidR := generic_go_valid width src ((chunk_index + 1) * 16) (by omega)
        (src.length - (chunk_index * 16 + intra)) (chunk_index * 16 + intra) st
        (by omega) (by omega) hvalid
      have hovR : (analyze_generic_go width src ((chunk_index + 1) * 16) 0
          (src.length - (chunk_index * 16 + intra)) (chunk_index * 16 + intra) st).2 ≤ 3 :=
        generic_go_ov_le width src ((chunk_index + 1) * 16) 0 _ _ st (by omega)
      have hscan : scanFrom width src (chunk_index * 16 + intra) st =
          scanFrom width src
            ((chunk_index + 1) * 16 +
              (analyze_generic_go width src ((chunk_index + 1) * 16) 0
                (src.length - (chunk_index * 16 + intra)) (chunk_index * 16 + intra) st).2)
            (analyze_generic_go width src ((chunk_index + 1) * 16) 0
              (src.length - (chunk_index * 16 + intra)) (chunk_index * 16 + intra) st).1 := by
        unfold scanFrom
        rw [generic_go_split width src ((chunk_index + 1) * 16) src.length (by omega)
          (src.length - (chunk_index * 16 + intra)) (chunk_index * 16 + intra) st (by omega)]
        simp only
        exact congrArg Prod.fst
          (generic_go_fuel width src src.length 0 _ _ _ _ (by omega) (by omega))
      have hrec := ih (chunk_index + 1)
        (analyze_generic_go width src ((chunk_index + 1) * 16) 0
          (src.length - (chunk_index * 16 + intra)) (chunk_index * 16 + intra) st).2
        (analyze_generic_go width src ((chunk_index + 1) * 16) 0
          (src.length - (chunk_index * 16 + intra)) (chunk_index * 16 + intra) st).1
        (by omega) (by omega) (by omega) hvalidR.2.1
        (fun j hj => hvalidR.2.2 ((chunk_index + 1) * 16 + j) (by omega) (by omega))
      rw [hr]
      exact ⟨hscan.trans hrec.1, hrec.2.1, hrec.2.2⟩

/-- The SSE2 scanner computes exactly the full generic scan, for every
valid UTF-8 input and every starting state. -/
theorem sse2_eq_generic (width : Nat → Option Nat) (src : List Nat) (st : ScanState)
    (hv : validUtf8 src = true) :
    analyze_source_file_sse2 width src st =
      (analyze_source_file_generic width src src.length 0 st).1 := by
  unfold analyze_source_file_sse2
  have hspec := sse2_go_spec width src hv (src.length / 16) 0 0 st (by omega) (by omega)
    (by omega) (by simpa using hv) (by omega)
  simp only [Nat.mul_zero, Nat.zero_mul, Nat.add_zero, Nat.zero_add] at hspec
  by_cases htail : (src.length / 16) * 16 +
      (sse2_go width src (src.length / 16) 0 0 st).2 < src.length
  · rw [if_pos htail]
    have hdrop := generic_go_drop width src
      ((src.length / 16) * 16 + (sse2_go width src (src.length / 16) 0 0 st).2)
      (src.length -
        ((src.length / 16) * 16 + (sse2_go width src (src.length / 16) 0 0 st).2))
      (src.length -
        ((src.length / 16) * 16 + (sse2_go width src (src.length / 16) 0 0 st).2))
      0 (sse2_go width src (src.length / 16) 0 0 st).1
    have hts : (src.length / 16) * 16 + (sse2_go width src (src.length / 16) 0 0 st).2 +
        (src.length -
          ((src.length / 16) * 16 + (sse2_go width src (src.length / 16) 0 0 st).2)) =
        src.length := by omega
    rw [hts, Nat.add_zero] at hdrop
    unfold analyze_source_file_generic
    rw [hdrop]
    have hchain := hspec.1
    unfold scanFrom at hchain
    rw [show src.length - (0 : Nat) = src.length by omega] at hchain
    exact hchain.symm
  · rw [if_neg htail]
    have hts : (src.length / 16) * 16 + (sse2_go width src (src.length / 16) 0 0 st).2 =
        src.length := by
      have := hspec.2.1
      omega
    have h1 : scanFrom width src
        ((src.length / 16) * 16 + (sse2_go width src (src.length / 16) 0 0 st).2)
        (sse2_go width src (src.length / 16) 0 0 st).1 =
        (sse2_go width src (src.length / 16) 0 0 st).1 := by
      unfold scanFrom
      rw [hts, Nat.sub_self]
      rfl
    have hchain := hspec.1
    rw [h1] at hchain
    unfold scanFrom at hchain
    rw [show src.length - (0 : Nat) = src.length by omega] at hchain
    exact hchain.symm

/-- C1: for every valid UTF-8 input text and starting state, the SSE2 fast
path and the generic scalar algorithm (as invoked by the dispatch, on the
whole input with output offset 0) produce identical outputs: the same
line-start sequence, the same multi-byte-character records, and the same
non-narrow-character records. -/
theorem c1_sse2_equiv_generic (width : Nat → Option Nat) (src : List Nat) (st : ScanState)
    (hv : validUtf8 src = true) :
    (analyze_source_file_sse2 width src st).lines =
        (analyze_source_file_generic width src src.length 0 st).1.lines ∧
      (analyze_source_file_sse2 width src st).multi_byte_chars =
        (analyze_source_file_generic width src src.length 0 st).1.multi_byte_chars ∧
      (analyze_source_file_sse2 width src st).non_narrow_chars =
        (analyze_source_file_generic width src src.length 0 st).1.non_narrow_chars := by
  rw [sse2_eq_generic width src st hv]
  exact ⟨rfl, rfl, rfl⟩

/-- Witness for C1 on a 32-byte input mixing a tab, a control byte,
multi-byte characters (also across a chunk boundary) and newlines. -/
theorem c1_witness :
    validUtf8 [48, 49, 9, 51, 52, 53, 10, 55, 56, 57, 97, 98, 99, 206, 148, 102,
        48, 49, 50, 51, 52, 53, 54, 55, 7, 57, 10, 98, 99, 206, 148, 102] = true ∧
      (analyze_source_file_sse2 sampleWidth
          [48, 49, 9, 51, 52, 53, 10, 55, 56, 57, 97, 98, 99, 206, 148, 102,
           48, 49, 50, 51, 52, 53, 54, 55, 7, 57, 10, 98, 99, 206, 148, 102]
          { lines := [0], multi_byte_chars := [], non_narrow_chars := [] }).lines =
        (analyze_source_file_generic sampleWidth
          [48, 49, 9, 51, 52, 53, 10, 55, 56, 57, 97, 98, 99, 206, 148, 102,
           48, 49, 50, 51, 52, 53, 54, 55, 7, 57, 10, 98, 99, 206, 148, 102]
          32 0 { lines := [0], multi_byte_chars := [], non_narrow_chars := [] }).1.lines :=
  ⟨by decide,
    ((c1_sse2_equiv_generic sampleWidth
      [48, 49, 9, 51, 52, 53, 10, 55, 56, 57, 97, 98, 99, 206, 148, 102,
       48, 49, 50, 51, 52, 53, 54, 55, 7, 57, 10, 98, 99, 206, 148, 102]
      { lines := [0], multi_byte_chars := [], non_narrow_chars := [] } (by decide)).1)⟩

/-! ## C3: invariants of the line-start table -/

/-- What one generic iteration does to the line table. -/
theorem genericStepState_lines (width : Nat → Option Nat) (src : List Nat) (i : Nat)
    (st : ScanState) :
    (genericStepState width src 0 i st).lines =
      st.lines ++ (if src.getD i 0 = 10 then [i + 0 + 1] else []) := by
  unfold genericStepState
  by_cases h1 : src.getD i 0 < 32
  · rw [if_pos h1]
    by_cases h2 : src.getD i 0 = 10
    · rw [if_pos h2, if_pos h2]
    · rw [if_neg h2, if_neg h2]
      by_cases h3 : src.getD i 0 = 9
      · rw [if_pos h3]
        simp
      · rw [if_neg h3]
        simp
  · rw [if_neg h1]
    have h2 : ¬ src.getD i 0 = 10 := by omega
    rw [if_neg h2]
    by_cases h4 : 127 ≤ src.getD i 0
    · rw [if_pos h4]
      dsimp only
      split_ifs <;> simp
    · rw [if_neg h4]
      simp

/-- The generic loop only appends to the line table, the appended entries
are strictly increasing, and each lies in `(i, scan bound]`. -/
theorem generic_go_lines (width : Nat → Option Nat) (src : List Nat) (N : Nat) :
    ∀ fuel i st,
      ∃ d : List Nat, (analyze_generic_go width src N 0 fuel i st).1.lines =
          st.lines ++ d ∧
        List.Pairwise (· < ·) d ∧ ∀ x ∈ d, i < x ∧ x ≤ N := by
  intro fuel
  induction fuel with
  | zero =>
    intro i st
    exact ⟨[], by simp [analyze_generic_go], by simp, by simp⟩
  | succ fuel ih =>
    intro i st
    by_cases hi : i < N
    · rw [generic_go_succ _ _ _ _ _ _ _ hi]
      obtain ⟨d, hd, hdpw, hdbound⟩ := ih (i + genericStepLen src i)
        (genericStepState width src 0 i st)
      have hstep := genericStepLen_bounds src i
      rw [genericStepState_lines] at hd
      by_cases h10 : src.getD i 0 = 10
      · refine ⟨[i + 0 + 1] ++ d, ?_, ?_, ?_⟩
        · rw [hd, if_pos h10, List.append_assoc]
        · rw [List.pairwise_append]
          refine ⟨by simp, hdpw, ?_⟩
          intro a ha b hb
          have := (hdbound b hb).1
          simp only [List.mem_singleton] at ha
          omega
        · intro x hx
          rcases List.mem_append.mp hx with hx | hx
          · simp only [List.mem_singleton] at hx
            omega
          · have := hdbound x hx
            omega
      · refine ⟨d, ?_, hdpw, ?_⟩
        · rw [hd, if_neg h10]
          simp
        · intro x hx
          have := hdbound x hx
          omega
    · rw [generic_go_exit _ _ _ _ _ _ _ hi]
      exact ⟨[], by simp, by simp, by simp⟩

/-- In a strictly increasing list every member is the last element or less
than it. -/
theorem pairwise_lt_mem_le_getLast (L : List Nat) (hL : L ≠ [])
    (hpw : List.Pairwise (· < ·) L) (x : Nat) (hx : x ∈ L) :
    x = L.getLast hL ∨ x < L.getLast hL := by
  have hsplit := List.dropLast_append_getLast hL
  rw [← hsplit] at hx hpw
  rcases List.mem_append.mp hx with hx | hx
  · right
    exact (List.pairwise_append.mp hpw).2.2 x hx (L.getLast hL) (by simp)
  · left
    simpa using hx

/-- C3: for every valid UTF-8 text, the line-start table produced by
`analyze_source_file` (under either dispatch choice) starts with 0 when
non-empty, is strictly increasing, and contains no entry equal to the
file's total byte length (the optimistic trailing entry is removed); empty
text yields an empty table. -/
theorem c3_line_table_invariants (width : Nat → Option Nat) (use_sse2 : Bool)
    (src : List Nat) (hv : validUtf8 src = true) :
    (∀ hd, ((analyze_source_file width use_sse2 src).1).head? = some hd → hd = 0) ∧
      List.Pairwise (· < ·) (analyze_source_file width use_sse2 src).1 ∧
      (∀ x ∈ (analyze_source_file width use_sse2 src).1, x ≠ src.length) ∧
      (analyze_source_file width use_sse2 []).1 = [] := by
  have hdispatch :
      analyze_source_file_dispatch width use_sse2 src
          { lines := [0], multi_byte_chars := [], non_narrow_chars := [] } =
        (analyze_source_file_generic width src src.length 0
          { lines := [0], multi_byte_chars := [], non_narrow_chars := [] }).1 := by
    unfold analyze_source_file_dispatch
    cases use_sse2 with
    | false => simp
    | true =>
      simp only [if_pos]
      exact sse2_eq_generic width src _ hv
  obtain ⟨d, hd, hdpw, hdbound⟩ := generic_go_lines width src src.length src.length 0
    { lines := [0], multi_byte_chars := [], non_narrow_chars := [] }
  have hL : (analyze_source_file_generic width src src.length 0
      { lines := [0], multi_byte_chars := [], non_narrow_chars := [] }).1.lines =
      0 :: d := by
    unfold analyze_source_file_generic
    rw [hd]
    rfl
  have hform : (analyze_source_file width use_sse2 src).1 =
      (if (0 :: d).getLast? = some src.length then (0 :: d).dropLast else (0 :: d)) := by
    unfold analyze_source_file
    dsimp only
    rw [hdispatch, hL]
  have hLpw : List.Pairwise (· < ·) (0 :: d) :=
    List.pairwise_cons.mpr ⟨fun y hy => (hdbound y hy).1, hdpw⟩
  have hLle : ∀ x ∈ 0 :: d, x ≤ src.length := by
    intro x hx
    rcases List.mem_cons.mp hx with rfl | hx
    · omega
    · exact (hdbound x hx).2
  refine ⟨?_, ?_, ?_, ?_⟩
  · intro hd0 hhead
    rw [hform] at hhead
    by_cases hpop : (0 :: d).getLast? = some src.length
    · rw [if_pos hpop] at hhead
      cases d with
      | nil => simp at hhead
      | cons y t =>
        simp at hhead
        omega
    · rw [if_neg hpop] at hhead
      simp at hhead
      omega
  · rw [hform]
    by_cases hpop : (0 :: d).getLast? = some src.length
    · rw [if_pos hpop]
      exact List.Pairwise.sublist (List.dropLast_sublist (0 :: d)) hLpw
    · rw [if_neg hpop]
      exact hLpw
  · intro x hx
    rw [hform] at hx
    by_cases hpop : (0 :: d).getLast? = some src.length
    · rw [if_pos hpop] at hx
      have hne : (0 :: d) ≠ [] := by simp
      have hlast : (0 :: d).getLast hne = src.length := by
        have := List.getLast?_eq_getLast (0 :: d) hne
        rw [this] at hpop
        exact Option.some.inj hpop
      have hsplit := List.dropLast_append_getLast hne
      have hpw2 := hLpw
      rw [← hsplit] at hpw2
      have hxlt := (List.pairwise_append.mp hpw2).2.2 x hx ((0 :: d).getLast hne) (by simp)
      omega
    · rw [if_neg hpop] at hx
      have hne : (0 :: d) ≠ [] := by simp
      rcases pairwise_lt_mem_le_getLast (0 :: d) hne hLpw x hx with heq | hlt
      · intro hxlen
        apply hpop
        rw [List.getLast?_eq_getLast (0 :: d) hne, ← heq, hxlen]
      · have := hLle ((0 :: d).getLast hne) (List.getLast_mem hne)
        omega
  · cases use_sse2 <;> rfl

/-- Witness for C3 on "a\nc" through the SSE2 dispatch. -/
theorem c3_witness :
    validUtf8 [97, 10, 99] = true ∧
      List.Pairwise (· < ·) (analyze_source_file sampleWidth true [97, 10, 99]).1 ∧
      (2 : Nat) ≠ ([97, 10, 99] : List Nat).length :=
  ⟨by decide,
    (c3_line_table_invariants sampleWidth true [97, 10, 99] (by decide)).2.1,
    (c3_line_table_invariants sampleWidth true [97, 10, 99] (by decide)).2.2.1 2 (by decide)⟩

/-! ## C2: the generic scanner, one Unicode scalar value at a time -/

/-- The sequence of `(byte position, scalar value, encoded length)` triples
of the text, in scan order. -/
def decode_chars_go (src : List Nat) : Nat → Nat → List (Nat × Nat × Nat)
  | 0, _ => []
  | fuel + 1, p =>
    if p < src.length then
      (p, (decodeUtf8 src p).1, (decodeUtf8 src p).2) ::
        decode_chars_go src fuel (p + (decodeUtf8 src p).2)
    else []

def decode_chars (src : List Nat) : List (Nat × Nat × Nat) :=
  decode_chars_go src src.length 0

/-- The recording policy of the specification, per Unicode scalar value
`c` at byte position `p` with encoded length `len`: `\n` pushes a line
start at `p + 1`, tab a Tab record, other controls a ZeroWidth record; a
scalar of 127 or above pushes a multi-byte record iff `len > 1` and a
non-narrow record iff its width (0 if unassigned) is not 1; printable
ASCII pushes nothing. -/
def scalar_records (width : Nat → Option Nat) (st : ScanState) (rec : Nat × Nat × Nat) :
    ScanState :=
  let p := rec.1
  let c := rec.2.1
  let len := rec.2.2
  if c < 32 then
    if c = 10 then { st with lines := st.lines ++ [p + 1] }
    else if c = 9 then
      { st with non_narrow_chars := st.non_narrow_chars ++ [NonNarrowChar.Tab p] }
    else { st with non_narrow_chars := st.non_narrow_chars ++ [NonNarrowChar.ZeroWidth p] }
  else if 127 ≤ c then
    let st1 :=
      if 1 < len then { st with multi_byte_chars := st.multi_byte_chars ++ [⟨p, len⟩] }
      else st
    let w := (width c).getD 0
    if w ≠ 1 then
      { st1 with non_narrow_chars := st1.non_narrow_chars ++ [NonNarrowChar.new p w] }
    else st1
  else st

/-- On an ASCII byte the decoded scalar is the byte itself. -/
theorem decodeUtf8_ascii (src : List Nat) (p : Nat) (h : src.getD p 0 < 128) :
    decodeUtf8 src p = (src.getD p 0, 1) := by
  simp only [decodeUtf8]
  rw [if_pos h]

/-- Each generic iteration advances by the decoded length. -/
theorem genericStepLen_eq_decode (src : List Nat) (p : Nat) :
    genericStepLen src p = (decodeUtf8 src p).2 := by
  unfold genericStepLen
  by_cases h1 : src.getD p 0 < 32
  · rw [if_pos h1, decodeUtf8_ascii src p (by omega)]
  · rw [if_neg h1]
    by_cases h2 : 127 ≤ src.getD p 0
    · rw [if_pos h2]
    · rw [if_neg h2, decodeUtf8_ascii src p (by omega)]

/-- Each generic iteration applies exactly the per-scalar policy (on a
valid character boundary). -/
theorem genericStepState_eq_scalar (width : Nat → Option Nat) (src : List Nat) (p : Nat)
    (st : ScanState) (hp : p < src.length) (hvalid : validUtf8 (src.drop p) = true) :
    genericStepState width src 0 p st =
      scalar_records width st (p, (decodeUtf8 src p).1, (decodeUtf8 src p).2) := by
  unfold genericStepState scalar_records
  by_cases h1 : src.getD p 0 < 32
  · rw [decodeUtf8_ascii src p (by omega)]
    simp only
    rw [if_pos h1, if_pos h1]
    rfl
  · by_cases h2 : src.getD p 0 < 128
    · rw [decodeUtf8_ascii src p (by omega)]
      simp only
      rw [if_neg h1, if_neg h1]
      by_cases h3 : 127 ≤ src.getD p 0
      · rw [if_pos h3, if_pos h3]
        rfl
      · rw [if_neg h3, if_neg h3]
    · have hmulti := valid_drop_multi src p hp (by omega) hvalid
      have hc := hmulti.2.2.2
      simp only
      rw [if_neg h1, if_neg (by omega : ¬ (decodeUtf8 src p).1 < 32),
        if_pos (by omega : 127 ≤ src.getD p 0),
        if_pos (by omega : 127 ≤ (decodeUtf8 src p).1)]
      rfl

/-- The generic loop is the left fold of the per-scalar policy over the
decoded character sequence. -/
theorem generic_go_foldl (width : Nat → Option Nat) (src : List Nat) :
    ∀ fuel p st, p ≤ src.length → validUtf8 (src.drop p) = true →
      (analyze_generic_go width src src.length 0 fuel p st).1 =
        (decode_chars_go src fuel p).foldl (scalar_records width) st := by
  intro fuel
  induction fuel with
  | zero =>
    intro p st _ _
    simp [analyze_generic_go, decode_chars_go]
  | succ fuel ih =>
    intro p st hp hvalid
    by_cases hi : p < src.length
    · rw [generic_go_succ _ _ _ _ _ _ _ hi]
      simp only [decode_chars_go, if_pos hi, List.foldl_cons]
      rw [genericStepLen_eq_decode, genericStepState_eq_scalar width src p st hi hvalid]
      by_cases hb : 128 ≤ src.getD p 0
      · have hmulti := valid_drop_multi src p hi hb hvalid
        exact ih _ _ (by omega) hmulti.2.1
      · have hL1 : (decodeUtf8 src p).2 = 1 := by
          rw [decodeUtf8_ascii src p (by omega)]
        rw [hL1]
        exact ih _ _ (by omega) (valid_drop_ascii src p hi (by omega) hvalid)
    · rw [generic_go_exit _ _ _ _ _ _ _ hi]
      simp [decode_chars_go, hi]

/-- Decoded lengths are always between 1 and 4. -/
theorem decode_chars_go_len_bounds (src : List Nat) :
    ∀ fuel p, ∀ r ∈ decode_chars_go src fuel p, 1 ≤ r.2.2 ∧ r.2.2 ≤ 4 := by
  intro fuel
  induction fuel with
  | zero => intro p r hr; simp [decode_chars_go] at hr
  | succ fuel ih =>
    intro p r hr
    by_cases hi : p < src.length
    · simp only [decode_chars_go, if_pos hi] at hr
      rcases List.mem_cons.mp hr with rfl | hr
      · exact decodeUtf8_len_bounds src p
      · exact ih _ r hr
    · simp [decode_chars_go, hi] at hr

/-- C2: on valid UTF-8 input, the generic scanner processes the text one
Unicode scalar value at a time, applying exactly the per-scalar recording
policy (`\n` pushes a line start at `p + 1`; tab pushes a Tab record;
other control bytes push a ZeroWidth record; a scalar at or above 127 of
encoded length `L` (1 ≤ L ≤ 4) pushes a multi-byte record `(p, L)` iff
`L > 1` and a non-narrow record iff its width — 0 when unassigned — is
not 1; printable ASCII pushes nothing). -/
theorem c2_generic_per_scalar_policy (width : Nat → Option Nat) (src : List Nat)
    (st : ScanState) (hv : validUtf8 src = true) :
    (analyze_source_file_generic width src src.length 0 st).1 =
        (decode_chars src).foldl (scalar_records width) st ∧
      ∀ r ∈ decode_chars src, 1 ≤ r.2.2 ∧ r.2.2 ≤ 4 := by
  constructor
  · exact generic_go_foldl width src src.length 0 st (by omega) (by simpa using hv)
  · exact decode_chars_go_len_bounds src src.length 0

/-- Witness for C2 on "0\tγ\n" (printable ASCII, a tab, a two-byte
character, a newline). -/
theorem c2_witness :
    validUtf8 [48, 9, 206, 179, 10] = true ∧
      (analyze_source_file_generic sampleWidth [48, 9, 206, 179, 10] 5 0
          { lines := [0], multi_byte_chars := [], non_narrow_chars := [] }).1 =
        (decode_chars [48, 9, 206, 179, 10]).foldl (scalar_records sampleWidth)
          { lines := [0], multi_byte_chars := [], non_narrow_chars := [] } :=
  ⟨by decide,
    (c2_generic_per_scalar_policy sampleWidth [48, 9, 206, 179, 10]
      { lines := [0], multi_byte_chars := [], non_narrow_chars := [] } (by decide)).1⟩
